import Mathlib

/-!
# Verification of the habit-tracker recurrence/streak core

Shallow embedding of the recurrence engine (src/habitbot/utils/dates.py),
the streak calculator and habit lifecycle service (src/habitbot/services/habits.py),
the reminder sweep (src/habitbot/services/reminders.py) and the name-validation
step of the creation dialog (src/habitbot/handlers/create_habit.py).

Calendar dates are embedded as proleptic-Gregorian ordinals (Nat, day 1 =
0001-01-01), exactly the representation Python's datetime.date uses
internally; comparison of dates is Nat comparison, date differences are
ordinal differences, and a date's (year, month, day) fields are recovered by
fromOrdinal.  Python's date arithmetic raises OverflowError below date.min
(ordinal 1) and ValueError on date.replace with an out-of-range day; those
exceptional paths are modelled as a missing result in the one function that
can hit them (previous_due_date), mirroring "no value is returned".
-/

namespace HabitBot

/-- Gregorian leap-year test (calendar.isleap / datetime's _is_leap). -/
def isLeap (y : Nat) : Bool :=
  y % 4 == 0 && (y % 100 != 0 || y % 400 == 0)

/-- Number of days in month m of year y (calendar.monthrange(y, m)[1]).
Months outside 1..12 raise in Python; the default branch is never reached for
dates produced by fromOrdinal. -/
def daysInMonth (y m : Nat) : Nat :=
  match m with
  | 2 => if isLeap y then 29 else 28
  | 4 => 30
  | 6 => 30
  | 9 => 30
  | 11 => 30
  | _ => 31

/-- Days in year y before the first day of month m (datetime's _days_before_month:
the _DAYS_BEFORE_MONTH table plus the leap correction after February). -/
def daysBeforeMonth (y m : Nat) : Nat :=
  (match m with
   | 0 => 0 | 1 => 0 | 2 => 31 | 3 => 59 | 4 => 90 | 5 => 120 | 6 => 151
   | 7 => 181 | 8 => 212 | 9 => 243 | 10 => 273 | 11 => 304 | 12 => 334 | _ => 365)
  + (if 2 < m ∧ isLeap y = true then 1 else 0)

/-- Number of days before January 1st of year y (datetime's _days_before_year). -/
def daysBeforeYear (y : Nat) : Nat :=
  365 * (y - 1) + (y - 1) / 4 - (y - 1) / 100 + (y - 1) / 400

/-- Length of year y in days. -/
def yearLength (y : Nat) : Nat :=
  if isLeap y then 366 else 365

/-- A calendar date as (year, month, day) fields. -/
structure Ymd where
  year : Nat
  month : Nat
  day : Nat
deriving DecidableEq, Repr

/-- Ordinal of a date, day 1 = 0001-01-01 (datetime's _ymd2ord). -/
def toOrdinal (v : Ymd) : Nat :=
  daysBeforeYear v.year + daysBeforeMonth v.year v.month + v.day

/-- A structurally valid Gregorian date. -/
def ValidYmd (v : Ymd) : Prop :=
  1 ≤ v.year ∧ 1 ≤ v.month ∧ v.month ≤ 12 ∧ 1 ≤ v.day ∧ v.day ≤ daysInMonth v.year v.month

instance (v : Ymd) : Decidable (ValidYmd v) := by
  unfold ValidYmd; infer_instance

/-- Linear scan for the year containing ordinal n: advances y while
n exceeds the days before year y+1. -/
def findYearGo (n : Nat) : Nat → Nat → Nat
  | 0, y => y
  | fuel + 1, y => if n ≤ daysBeforeYear (y + 1) then y else findYearGo n fuel (y + 1)

/-- Lower estimate of the year containing ordinal n, from the 400-year cycle
of 146097 days; at most a few years below the true year. -/
def yearEstimate (n : Nat) : Nat := max 1 (400 * (n - 1) / 146097)

/-- Year containing ordinal n: the estimate corrected by a bounded scan. -/
def yearOf (n : Nat) : Nat := findYearGo n 8 (yearEstimate n)

/-- Linear scan for the month of year y containing day-of-year r. -/
def findMonthGo (y r : Nat) : Nat → Nat → Nat
  | 0, m => m
  | fuel + 1, m => if r ≤ daysBeforeMonth y (m + 1) then m else findMonthGo y r fuel (m + 1)

/-- Inverse of toOrdinal (datetime's _ord2ymd): year, month and day of ordinal n. -/
def fromOrdinal (n : Nat) : Ymd :=
  let y := yearOf n
  let r := n - daysBeforeYear y
  let m := findMonthGo y r 11 1
  ⟨y, m, r - daysBeforeMonth y m⟩

theorem daysInMonth_pos (y m : Nat) : 1 ≤ daysInMonth y m := by
  unfold daysInMonth
  split <;> first | omega | (split <;> omega)

theorem isLeap_iff (y : Nat) :
    isLeap y = true ↔ (y % 4 = 0 ∧ (y % 100 ≠ 0 ∨ y % 400 = 0)) := by
  simp [isLeap]

theorem daysBeforeMonth_succ (y m : Nat) (hm : 1 ≤ m) (hm' : m ≤ 12) :
    daysBeforeMonth y (m + 1) = daysBeforeMonth y m + daysInMonth y m := by
  cases h : isLeap y <;> interval_cases m <;> simp [daysBeforeMonth, daysInMonth, h]

theorem daysBeforeMonth_mono (y : Nat) {m m' : Nat} (h1 : 1 ≤ m) (h : m ≤ m')
    (h13 : m' ≤ 13) : daysBeforeMonth y m ≤ daysBeforeMonth y m' := by
  induction m' with
  | zero => omega
  | succ k ih =>
    rcases Nat.lt_or_ge m (k + 1) with hlt | hge
    · have hk : daysBeforeMonth y m ≤ daysBeforeMonth y k := ih (by omega) (by omega)
      have hs : daysBeforeMonth y (k + 1) = daysBeforeMonth y k + daysInMonth y k :=
        daysBeforeMonth_succ y k (by omega) (by omega)
      omega
    · have : m = k + 1 := by omega
      subst this; exact le_refl _

theorem daysBeforeMonth_13 (y : Nat) : daysBeforeMonth y 13 = yearLength y := by
  cases h : isLeap y <;> simp [daysBeforeMonth, yearLength, h]

set_option maxHeartbeats 1600000 in
theorem daysBeforeYear_succ (y : Nat) (hy : 1 ≤ y) :
    daysBeforeYear (y + 1) = daysBeforeYear y + yearLength y := by
  have hL := isLeap_iff y
  unfold daysBeforeYear yearLength
  cases hb : isLeap y
  · rw [hb] at hL
    simp only [Bool.false_eq_true, false_iff] at hL
    push_neg at hL
    rw [if_neg (by simp [hb])]
    omega
  · rw [hb] at hL
    simp only [true_iff] at hL
    rw [if_pos (by simp [hb])]
    omega

theorem daysBeforeYear_mono {y y' : Nat} (h : y ≤ y') :
    daysBeforeYear y ≤ daysBeforeYear y' := by
  induction y' with
  | zero =>
    have : y = 0 := by omega
    subst this; exact le_refl _
  | succ k ih =>
    rcases Nat.lt_or_ge y (k + 1) with hlt | hge
    · have hk : daysBeforeYear y ≤ daysBeforeYear k := ih (by omega)
      rcases Nat.eq_zero_or_pos k with hk0 | hk1
      · subst hk0
        have : y = 0 := by omega
        subst this
        simp [daysBeforeYear]
      · have hs := daysBeforeYear_succ k hk1
        omega
    · have : y = k + 1 := by omega
      subst this; exact le_refl _

theorem le_daysBeforeYear_two_add (n : Nat) : n ≤ daysBeforeYear (n + 2) := by
  unfold daysBeforeYear
  omega

theorem findYearGo_correct (n : Nat) : ∀ fuel y, 1 ≤ y → daysBeforeYear y < n →
    n ≤ daysBeforeYear (y + fuel + 1) →
    1 ≤ findYearGo n fuel y ∧ daysBeforeYear (findYearGo n fuel y) < n ∧
      n ≤ daysBeforeYear (findYearGo n fuel y + 1) := by
  intro fuel
  induction fuel with
  | zero =>
    intro y hy hlt hle
    exact ⟨hy, hlt, hle⟩
  | succ f ih =>
    intro y hy hlt hle
    unfold findYearGo
    by_cases hstop : n ≤ daysBeforeYear (y + 1)
    · rw [if_pos hstop]
      exact ⟨hy, hlt, hstop⟩
    · rw [if_neg hstop]
      have heq : y + 1 + f + 1 = y + (f + 1) + 1 := by omega
      exact ih (y + 1) (by omega) (by omega) (heq ▸ hle)

theorem yearEstimate_lower (n : Nat) (hn : 1 ≤ n) :
    daysBeforeYear (yearEstimate n) < n := by
  unfold yearEstimate daysBeforeYear
  rcases Nat.le_total (400 * (n - 1) / 146097) 1 with hm | hm
  · rw [Nat.max_eq_left hm]
    omega
  · rw [Nat.max_eq_right hm]
    omega

theorem yearEstimate_upper (n : Nat) (hn : 1 ≤ n) :
    n ≤ daysBeforeYear (yearEstimate n + 8 + 1) := by
  unfold yearEstimate daysBeforeYear
  rcases Nat.le_total (400 * (n - 1) / 146097) 1 with hm | hm
  · rw [Nat.max_eq_left hm]
    omega
  · rw [Nat.max_eq_right hm]
    omega

theorem yearOf_correct (n : Nat) (hn : 1 ≤ n) :
    1 ≤ yearOf n ∧ daysBeforeYear (yearOf n) < n ∧ n ≤ daysBeforeYear (yearOf n + 1) := by
  exact findYearGo_correct n 8 (yearEstimate n) (le_max_left 1 _)
    (yearEstimate_lower n hn) (yearEstimate_upper n hn)

theorem findMonthGo_correct (y r : Nat) : ∀ fuel m, 1 ≤ m → daysBeforeMonth y m < r →
    r ≤ daysBeforeMonth y (m + fuel + 1) →
    1 ≤ findMonthGo y r fuel m ∧ findMonthGo y r fuel m ≤ m + fuel ∧
      daysBeforeMonth y (findMonthGo y r fuel m) < r ∧
      r ≤ daysBeforeMonth y (findMonthGo y r fuel m + 1) := by
  intro fuel
  induction fuel with
  | zero =>
    intro m hm hlt hle
    exact ⟨hm, le_refl _, hlt, hle⟩
  | succ f ih =>
    intro m hm hlt hle
    unfold findMonthGo
    by_cases hstop : r ≤ daysBeforeMonth y (m + 1)
    · rw [if_pos hstop]
      exact ⟨hm, by omega, hlt, hstop⟩
    · rw [if_neg hstop]
      have heq : m + 1 + f + 1 = m + (f + 1) + 1 := by omega
      have h := ih (m + 1) (by omega) (by omega) (heq ▸ hle)
      exact ⟨h.1, by omega, h.2.2⟩

theorem fromOrdinal_spec (n : Nat) (hn : 1 ≤ n) :
    ValidYmd (fromOrdinal n) ∧ toOrdinal (fromOrdinal n) = n := by
  obtain ⟨hy1, hylt, hyle⟩ := yearOf_correct n hn
  have hyL := daysBeforeYear_succ (yearOf n) hy1
  have h13 := daysBeforeMonth_13 (yearOf n)
  have hm1 : daysBeforeMonth (yearOf n) 1 = 0 := rfl
  have h1113 : daysBeforeMonth (yearOf n) (1 + 11 + 1) = daysBeforeMonth (yearOf n) 13 := rfl
  have hm := findMonthGo_correct (yearOf n) (n - daysBeforeYear (yearOf n)) 11 1
    (le_refl 1) (by omega) (by omega)
  obtain ⟨hq1, hq12, hqlt, hqle⟩ := hm
  have hsucc := daysBeforeMonth_succ (yearOf n)
    (findMonthGo (yearOf n) (n - daysBeforeYear (yearOf n)) 11 1) hq1 (by omega)
  constructor
  · refine ⟨hy1, hq1, ?_, ?_, ?_⟩
    · show findMonthGo (yearOf n) (n - daysBeforeYear (yearOf n)) 11 1 ≤ 12
      omega
    · show 1 ≤ n - daysBeforeYear (yearOf n) -
        daysBeforeMonth (yearOf n) (findMonthGo (yearOf n) (n - daysBeforeYear (yearOf n)) 11 1)
      omega
    · show n - daysBeforeYear (yearOf n) -
        daysBeforeMonth (yearOf n) (findMonthGo (yearOf n) (n - daysBeforeYear (yearOf n)) 11 1)
        ≤ daysInMonth (yearOf n) (findMonthGo (yearOf n) (n - daysBeforeYear (yearOf n)) 11 1)
      omega
  · show daysBeforeYear (yearOf n) +
      daysBeforeMonth (yearOf n) (findMonthGo (yearOf n) (n - daysBeforeYear (yearOf n)) 11 1) +
      (n - daysBeforeYear (yearOf n) -
        daysBeforeMonth (yearOf n) (findMonthGo (yearOf n) (n - daysBeforeYear (yearOf n)) 11 1))
      = n
    omega

theorem toOrdinal_bracket (v : Ymd) (hv : ValidYmd v) :
    daysBeforeYear v.year < toOrdinal v ∧ toOrdinal v ≤ daysBeforeYear (v.year + 1) := by
  obtain ⟨hy, hm1, hm12, hd1, hd2⟩ := hv
  have hsucc := daysBeforeMonth_succ v.year v.month hm1 hm12
  have hmono := @daysBeforeMonth_mono v.year (v.month + 1) 13 (by omega)
    (by omega) (le_refl 13)
  have h13 := daysBeforeMonth_13 v.year
  have hyL := daysBeforeYear_succ v.year hy
  unfold toOrdinal
  omega

theorem fromOrdinal_toOrdinal (v : Ymd) (hv : ValidYmd v) :
    fromOrdinal (toOrdinal v) = v := by
  have hn : 1 ≤ toOrdinal v := by
    obtain ⟨hy, hm1, hm12, hd1, hd2⟩ := hv
    unfold toOrdinal
    omega
  obtain ⟨hw, hA⟩ := fromOrdinal_spec (toOrdinal v) hn
  have hwB := toOrdinal_bracket (fromOrdinal (toOrdinal v)) hw
  rw [hA] at hwB
  have hvB := toOrdinal_bracket v hv
  -- the year is determined by the ordinal bracket
  have hyear : (fromOrdinal (toOrdinal v)).year = v.year := by
    by_contra hne
    rcases Nat.lt_or_ge (fromOrdinal (toOrdinal v)).year v.year with hlt | hge
    · have := @daysBeforeYear_mono ((fromOrdinal (toOrdinal v)).year + 1) v.year
        (by omega)
      omega
    · have := @daysBeforeYear_mono (v.year + 1) (fromOrdinal (toOrdinal v)).year
        (by omega)
      omega
  obtain ⟨hwy, hwm1, hwm12, hwd1, hwd2⟩ := hw
  obtain ⟨hvy, hvm1, hvm12, hvd1, hvd2⟩ := hv
  have hwsucc := daysBeforeMonth_succ v.year (fromOrdinal (toOrdinal v)).month hwm1
    (by omega)
  have hvsucc := daysBeforeMonth_succ v.year v.month hvm1 hvm12
  rw [hyear] at hwd2
  -- equal ordinals within the same year
  have hofs : daysBeforeMonth v.year (fromOrdinal (toOrdinal v)).month +
      (fromOrdinal (toOrdinal v)).day = daysBeforeMonth v.year v.month + v.day := by
    have h1 : daysBeforeYear (fromOrdinal (toOrdinal v)).year +
        daysBeforeMonth (fromOrdinal (toOrdinal v)).year (fromOrdinal (toOrdinal v)).month +
        (fromOrdinal (toOrdinal v)).day
        = daysBeforeYear v.year + daysBeforeMonth v.year v.month + v.day := hA
    rw [hyear] at h1
    omega
  -- the month is determined by the day-of-year bracket
  have hmonth : (fromOrdinal (toOrdinal v)).month = v.month := by
    by_contra hne
    rcases Nat.lt_or_ge (fromOrdinal (toOrdinal v)).month v.month with hlt | hge
    · have := @daysBeforeMonth_mono v.year ((fromOrdinal (toOrdinal v)).month + 1)
        v.month (by omega) (by omega) (by omega)
      omega
    · have := @daysBeforeMonth_mono v.year (v.month + 1)
        ((fromOrdinal (toOrdinal v)).month) (by omega) (by omega) (by omega)
      omega
  have hday : (fromOrdinal (toOrdinal v)).day = v.day := by
    rw [hmonth] at hofs
    omega
  cases hdef : fromOrdinal (toOrdinal v) with
  | mk wy wm wd =>
    rw [hdef] at hyear hmonth hday
    cases v with
    | mk vy vm vd => simp_all

/-- The ordinal just before the first day of month m of year y is the last day of
its own month: recovering (year, month, day) fields at that ordinal yields a day
equal to the length of its month. -/
theorem fromOrdinal_month_end (y m : Nat) (hy : 1 ≤ y) (hm1 : 1 ≤ m) (hm12 : m ≤ 12)
    (hB : 1 ≤ daysBeforeYear y + daysBeforeMonth y m) :
    (fromOrdinal (daysBeforeYear y + daysBeforeMonth y m)).day
      = daysInMonth (fromOrdinal (daysBeforeYear y + daysBeforeMonth y m)).year
          (fromOrdinal (daysBeforeYear y + daysBeforeMonth y m)).month := by
  rcases Nat.lt_or_ge m 2 with hm2 | hm2
  · -- m = 1: the previous month is December of year y - 1
    have hmeq : m = 1 := by omega
    subst hmeq
    have hm0 : daysBeforeMonth y 1 = 0 := rfl
    have hy2 : 2 ≤ y := by
      by_contra hy2
      have : y = 1 := by omega
      subst this
      simp [daysBeforeYear] at hB
      omega
    have hyL := daysBeforeYear_succ (y - 1) (by omega)
    have h13 := daysBeforeMonth_13 (y - 1)
    have hs12 := daysBeforeMonth_succ (y - 1) 12 (by omega) (le_refl 12)
    have h1213 : (12 : Nat) + 1 = 13 := rfl
    rw [h1213] at hs12
    have hd12 : daysInMonth (y - 1) 12 = 31 := rfl
    have hu : ValidYmd ⟨y - 1, 12, 31⟩ := by
      show 1 ≤ y - 1 ∧ 1 ≤ 12 ∧ 12 ≤ 12 ∧ 1 ≤ 31 ∧ 31 ≤ daysInMonth (y - 1) 12
      rw [hd12]
      omega
    have ht : toOrdinal ⟨y - 1, 12, 31⟩ = daysBeforeYear y + daysBeforeMonth y 1 := by
      show daysBeforeYear (y - 1) + daysBeforeMonth (y - 1) 12 + 31
        = daysBeforeYear y + daysBeforeMonth y 1
      have hyy : y - 1 + 1 = y := by omega
      rw [hyy] at hyL
      omega
    rw [← ht, fromOrdinal_toOrdinal _ hu]
    exact hd12.symm
  · -- m ≥ 2: the previous month is m - 1 of the same year
    have hs := daysBeforeMonth_succ y (m - 1) (by omega) (by omega)
    have hpos := daysInMonth_pos y (m - 1)
    have hu : ValidYmd ⟨y, m - 1, daysInMonth y (m - 1)⟩ := by
      show 1 ≤ y ∧ 1 ≤ m - 1 ∧ m - 1 ≤ 12 ∧ 1 ≤ daysInMonth y (m - 1) ∧
        daysInMonth y (m - 1) ≤ daysInMonth y (m - 1)
      omega
    have ht : toOrdinal ⟨y, m - 1, daysInMonth y (m - 1)⟩
        = daysBeforeYear y + daysBeforeMonth y m := by
      show daysBeforeYear y + daysBeforeMonth y (m - 1) + daysInMonth y (m - 1)
        = daysBeforeYear y + daysBeforeMonth y m
      have hmm : m - 1 + 1 = m := by omega
      rw [hmm] at hs
      omega
    rw [← ht, fromOrdinal_toOrdinal _ hu]

/-- Python's date.weekday(): Monday is 0.  Ordinal 1 (0001-01-01) is a Monday. -/
def weekday (n : Nat) : Nat := (n + 6) % 7

/-- The five repetition modes of models.RepeatMode. -/
inductive RepeatMode where
  | daily
  | weekdays
  | weekly
  | monthly
  | interval
deriving DecidableEq, Repr

/-- models.RepeatConfig.  Absent keys are modelled as none / the empty list.
interval_days is an Int because the due rule treats non-positive stored values
specially (max(1, ...) and falsiness of 0). -/
structure RepeatConfig where
  mode : RepeatMode
  weekdays : List Nat := []
  interval_days : Option Int := none
  week_day : Option Nat := none
  month_day : Option Nat := none
deriving DecidableEq, Repr

/-- models.ReminderConfig.  The time string "HH:MM" is modelled as minutes
since midnight: comparison of zero-padded "HH:MM" strings coincides with
numeric comparison of minutes. -/
structure Reminder where
  enabled : Bool
  time : Nat
  last_sent_date : Option Nat := none
deriving DecidableEq, Repr

/-- models.HabitDocument, restricted to the fields the core logic reads.
Dates are ordinals; start_date = none models a missing/empty start_date string.
The rpt field embeds the source's repeat field (a Lean keyword).
updated_at is an abstract timestamp (Python: a datetime written from utcnow()).
Display-only fields (name, emoji, description, created_at) are omitted: no
core operation branches on them. -/
structure Habit where
  user_id : Nat
  start_date : Option Nat
  target_date : Option Nat := none
  archived : Bool := false
  rpt : RepeatConfig
  reminder : Reminder
  current_streak : Nat := 0
  best_streak : Nat := 0
  last_completed_on : Option Nat := none
  updated_at : Nat := 0
deriving DecidableEq, Repr

/-- dates.py line 95 / 136: max(1, int(repeat.get("interval_days") or 1)).
A stored 0 is falsy, so it falls back to 1 before max is applied. -/
def intervalOf (r : RepeatConfig) : Nat :=
  (max 1 (match r.interval_days with
          | none => 1
          | some v => if v = 0 then 1 else v)).toNat

theorem intervalOf_pos (r : RepeatConfig) : 1 ≤ intervalOf r := by
  unfold intervalOf
  have h : (1 : Int) ≤ max 1 (match r.interval_days with
      | none => 1
      | some v => if v = 0 then 1 else v) := le_max_left _ _
  omega

/-- dates.py line 114 / 150: int(repeat.get("month_day") or start.day).
A missing or zero (falsy) month_day falls back to the start date's
day-of-month. -/
def monthDayOf (r : RepeatConfig) (start : Nat) : Nat :=
  match r.month_day with
  | none => (fromOrdinal start).day
  | some 0 => (fromOrdinal start).day
  | some k => k

/-- dates.py lines 108-110 / 141-143: repeat.get("weekdays") or [] with the
empty list promoted to all seven weekdays. -/
def allowedWeekdays (r : RepeatConfig) : List Nat :=
  if r.weekdays.isEmpty then [0, 1, 2, 3, 4, 5, 6] else r.weekdays

/-- dates.is_due_on (dates.py lines 77-119). -/
def is_due_on (h : Habit) (day : Nat) : Bool :=
  match h.start_date with
  | none => false
  | some start =>
    if day < start then false
    else if (match h.target_date with
             | some t => decide (t < day)
             | none => false) then false
    else
      match h.rpt.mode with
      | RepeatMode.daily => true
      | RepeatMode.interval => (day - start) % intervalOf h.rpt == 0
      | RepeatMode.weekly =>
        let desired := match h.rpt.week_day with
                       | none => weekday start
                       | some w => w
        weekday day == desired
      | RepeatMode.weekdays => (allowedWeekdays h.rpt).contains (weekday day)
      | RepeatMode.monthly =>
        let md := monthDayOf h.rpt start
        let v := fromOrdinal day
        v.day == min md (daysInMonth v.year v.month)

/-- The backward scan of the weekdays branch of previous_due_date (dates.py
lines 144-148): walk candidate downwards while candidate is at or after start,
stopping at the first candidate whose weekday is allowed and which is due.
Returns the final candidate value; none models the OverflowError Python
raises when the subtraction would go below date.min (ordinal 1). -/
def weekdaysScan (h : Habit) (allowed : List Nat) (start : Nat) : Nat → Option Nat
  | 0 =>
    if 0 < start then some 0
    else if allowed.contains (weekday 0) && is_due_on h 0 then some 0
    else none
  | c + 1 =>
    if c + 1 < start then some (c + 1)
    else if allowed.contains (weekday (c + 1)) && is_due_on h (c + 1) then some (c + 1)
    else if c + 1 ≤ 1 then none
    else weekdaysScan h allowed start c

/-- One unfolding of dates.previous_due_date (dates.py lines 122-167), with
the recursive call abstracted as rec.  A subtraction that Python would answer
with an OverflowError (date arithmetic below date.min, ordinal 1) and a
replace(day=0) that would raise ValueError are modelled as none. -/
def prevBody (h : Habit) (rec : Nat → Option Nat) (from_day : Nat) : Option Nat :=
  match h.start_date with
  | none => none
  | some start =>
    if from_day ≤ start then none
    else
      match h.rpt.mode with
      | RepeatMode.daily =>
        if from_day ≤ 1 then none
        else
          let c := from_day - 1
          if c < start then none
          else if is_due_on h c then some c
          else rec c
      | RepeatMode.interval =>
        let k := intervalOf h.rpt
        if from_day ≤ k then none
        else
          let c := from_day - k
          if c < start then none
          else if is_due_on h c then some c
          else rec c
      | RepeatMode.weekly =>
        if from_day ≤ 7 then none
        else
          let c := from_day - 7
          if c < start then none
          else if is_due_on h c then some c
          else rec c
      | RepeatMode.weekdays =>
        if from_day ≤ 1 then none
        else
          match weekdaysScan h (allowedWeekdays h.rpt) start (from_day - 1) with
          | none => none
          | some c =>
            if c < start then none
            else if is_due_on h c then some c
            else none
      | RepeatMode.monthly =>
        let v := fromOrdinal from_day
        let first := from_day - (v.day - 1)
        if first ≤ 1 then none
        else
          let p := fromOrdinal (first - 1)
          let lastPrev := daysInMonth p.year p.month
          let eff := min (monthDayOf h.rpt start) lastPrev
          if eff = 0 then none
          else
            let c := toOrdinal ⟨p.year, p.month, eff⟩
            if c < start then none
            else if is_due_on h c then some c
            else none

/-- Fuel-indexed unfolding of previous_due_date; the fuel only has to exceed
from_day because every recursive call strictly decreases it. -/
def prevAux (h : Habit) : Nat → Nat → Option Nat
  | 0, _ => none
  | fuel + 1, d => prevBody h (prevAux h fuel) d

/-- dates.previous_due_date. -/
def previous_due_date (h : Habit) (from_day : Nat) : Option Nat :=
  prevAux h (from_day + 1) from_day

theorem prevBody_congr (h : Habit) (r₁ r₂ : Nat → Option Nat) (d : Nat)
    (hr : ∀ c, c < d → r₁ c = r₂ c) : prevBody h r₁ d = prevBody h r₂ d := by
  unfold prevBody
  cases h.start_date with
  | none => rfl
  | some start =>
    dsimp only
    by_cases h1 : d ≤ start
    · rw [if_pos h1, if_pos h1]
    · rw [if_neg h1, if_neg h1]
      cases h.rpt.mode with
      | daily =>
        dsimp only
        by_cases h2 : d ≤ 1
        · rw [if_pos h2, if_pos h2]
        · rw [if_neg h2, if_neg h2]
          by_cases h3 : d - 1 < start
          · rw [if_pos h3, if_pos h3]
          · rw [if_neg h3, if_neg h3]
            by_cases h4 : is_due_on h (d - 1) = true
            · rw [if_pos h4, if_pos h4]
            · rw [if_neg h4, if_neg h4]
              exact hr _ (by omega)
      | interval =>
        dsimp only
        by_cases h2 : d ≤ intervalOf h.rpt
        · rw [if_pos h2, if_pos h2]
        · rw [if_neg h2, if_neg h2]
          by_cases h3 : d - intervalOf h.rpt < start
          · rw [if_pos h3, if_pos h3]
          · rw [if_neg h3, if_neg h3]
            by_cases h4 : is_due_on h (d - intervalOf h.rpt) = true
            · rw [if_pos h4, if_pos h4]
            · rw [if_neg h4, if_neg h4]
              have hk := intervalOf_pos h.rpt
              exact hr _ (by omega)
      | weekly =>
        dsimp only
        by_cases h2 : d ≤ 7
        · rw [if_pos h2, if_pos h2]
        · rw [if_neg h2, if_neg h2]
          by_cases h3 : d - 7 < start
          · rw [if_pos h3, if_pos h3]
          · rw [if_neg h3, if_neg h3]
            by_cases h4 : is_due_on h (d - 7) = true
            · rw [if_pos h4, if_pos h4]
            · rw [if_neg h4, if_neg h4]
              exact hr _ (by omega)
      | weekdays => rfl
      | monthly => rfl

theorem prevAux_invariant (h : Habit) : ∀ f₁ f₂ d, d < f₁ → d < f₂ →
    prevAux h f₁ d = prevAux h f₂ d := by
  intro f₁
  induction f₁ with
  | zero => intro f₂ d h1; omega
  | succ a ih =>
    intro f₂ d h1 h2
    cases f₂ with
    | zero => omega
    | succ b =>
      show prevBody h (prevAux h a) d = prevBody h (prevAux h b) d
      apply prevBody_congr
      intro c hc
      have hca : c < a ∨ a ≤ c := by omega
      rcases Nat.lt_or_ge c a with hca | hca
      · rcases Nat.lt_or_ge c b with hcb | hcb
        · exact ih b c hca hcb
        · omega
      · omega

/-- The canonical one-step unfolding of previous_due_date. -/
theorem previous_due_date_eq (h : Habit) (d : Nat) :
    previous_due_date h d = prevBody h (previous_due_date h) d := by
  show prevBody h (prevAux h d) d = _
  apply prevBody_congr
  intro c hc
  exact prevAux_invariant h d (c + 1) c (by omega) (by omega)

theorem weekdaysScan_le (h : Habit) (allowed : List Nat) (start : Nat) :
    ∀ cand c, weekdaysScan h allowed start cand = some c → c ≤ cand := by
  intro cand
  induction cand with
  | zero =>
    intro c hc
    unfold weekdaysScan at hc
    split at hc
    · exact (Option.some.inj hc) ▸ le_refl _
    · split at hc
      · exact (Option.some.inj hc) ▸ le_refl _
      · exact absurd hc (by simp)
  | succ k ih =>
    intro c hc
    unfold weekdaysScan at hc
    split at hc
    · exact (Option.some.inj hc) ▸ le_refl _
    · split at hc
      · exact (Option.some.inj hc) ▸ le_refl _
      · split at hc
        · exact absurd hc (by simp)
        · exact Nat.le_succ_of_le (ih c hc)

/-- The monthly candidate of previous_due_date is strictly earlier than the day
it was computed from: the ordinal just before the first of the month is the
last day of the previous month, and the clamped day of that month cannot
exceed it. -/
theorem monthly_candidate_lt (d : Nat) (hd : 1 ≤ d)
    (eff : Nat)
    (heff : eff ≤ daysInMonth (fromOrdinal (d - ((fromOrdinal d).day - 1) - 1)).year
      (fromOrdinal (d - ((fromOrdinal d).day - 1) - 1)).month)
    (hfirst : ¬ (d - ((fromOrdinal d).day - 1) ≤ 1)) :
    toOrdinal ⟨(fromOrdinal (d - ((fromOrdinal d).day - 1) - 1)).year,
      (fromOrdinal (d - ((fromOrdinal d).day - 1) - 1)).month, eff⟩ < d := by
  obtain ⟨hval, hA⟩ := fromOrdinal_spec d hd
  obtain ⟨hy, hm1, hm12, hd1, hd2⟩ := hval
  have hA' : daysBeforeYear (fromOrdinal d).year +
      daysBeforeMonth (fromOrdinal d).year (fromOrdinal d).month + (fromOrdinal d).day = d := hA
  have hBeq : d - ((fromOrdinal d).day - 1) - 1
      = daysBeforeYear (fromOrdinal d).year +
        daysBeforeMonth (fromOrdinal d).year (fromOrdinal d).month := by omega
  have hB1 : 1 ≤ daysBeforeYear (fromOrdinal d).year +
      daysBeforeMonth (fromOrdinal d).year (fromOrdinal d).month := by omega
  have hend := fromOrdinal_month_end (fromOrdinal d).year (fromOrdinal d).month hy hm1 hm12 hB1
  have hAB := (fromOrdinal_spec (daysBeforeYear (fromOrdinal d).year +
      daysBeforeMonth (fromOrdinal d).year (fromOrdinal d).month) hB1).2
  rw [hBeq] at heff ⊢
  have hto : toOrdinal ⟨(fromOrdinal (daysBeforeYear (fromOrdinal d).year +
        daysBeforeMonth (fromOrdinal d).year (fromOrdinal d).month)).year,
      (fromOrdinal (daysBeforeYear (fromOrdinal d).year +
        daysBeforeMonth (fromOrdinal d).year (fromOrdinal d).month)).month, eff⟩
      = daysBeforeYear (fromOrdinal (daysBeforeYear (fromOrdinal d).year +
          daysBeforeMonth (fromOrdinal d).year (fromOrdinal d).month)).year +
        daysBeforeMonth (fromOrdinal (daysBeforeYear (fromOrdinal d).year +
          daysBeforeMonth (fromOrdinal d).year (fromOrdinal d).month)).year
          (fromOrdinal (daysBeforeYear (fromOrdinal d).year +
            daysBeforeMonth (fromOrdinal d).year (fromOrdinal d).month)).month + eff := rfl
  have htoB : toOrdinal (fromOrdinal (daysBeforeYear (fromOrdinal d).year +
        daysBeforeMonth (fromOrdinal d).year (fromOrdinal d).month))
      = daysBeforeYear (fromOrdinal (daysBeforeYear (fromOrdinal d).year +
          daysBeforeMonth (fromOrdinal d).year (fromOrdinal d).month)).year +
        daysBeforeMonth (fromOrdinal (daysBeforeYear (fromOrdinal d).year +
          daysBeforeMonth (fromOrdinal d).year (fromOrdinal d).month)).year
          (fromOrdinal (daysBeforeYear (fromOrdinal d).year +
            daysBeforeMonth (fromOrdinal d).year (fromOrdinal d).month)).month +
        (fromOrdinal (daysBeforeYear (fromOrdinal d).year +
          daysBeforeMonth (fromOrdinal d).year (fromOrdinal d).month)).day := rfl
  omega

/-- Every result of previous_due_date is strictly earlier than from_day and is
itself due: the soundness invariant of the engine (used both for claim C1 and
for the termination of the streak walk). -/
theorem prev_sound (h : Habit) : ∀ d r, previous_due_date h d = some r →
    r < d ∧ is_due_on h r = true := by
  intro d
  induction d using Nat.strong_induction_on with
  | _ d ih =>
    intro r hr
    rw [previous_due_date_eq] at hr
    unfold prevBody at hr
    rcases hsd : h.start_date with _ | start
    · rw [hsd] at hr
      exact absurd hr (by simp)
    · rw [hsd] at hr
      dsimp only at hr
      by_cases h1 : d ≤ start
      · rw [if_pos h1] at hr
        exact absurd hr (by simp)
      · rw [if_neg h1] at hr
        cases hm : h.rpt.mode with
        | daily =>
          rw [hm] at hr
          dsimp only at hr
          by_cases h2 : d ≤ 1
          · rw [if_pos h2] at hr; exact absurd hr (by simp)
          · rw [if_neg h2] at hr
            by_cases h3 : d - 1 < start
            · rw [if_pos h3] at hr; exact absurd hr (by simp)
            · rw [if_neg h3] at hr
              by_cases h4 : is_due_on h (d - 1) = true
              · rw [if_pos h4] at hr
                have : d - 1 = r := Option.some.inj hr
                subst this
                exact ⟨by omega, h4⟩
              · rw [if_neg h4] at hr
                have := ih (d - 1) (by omega) r hr
                exact ⟨by omega, this.2⟩
        | interval =>
          rw [hm] at hr
          dsimp only at hr
          have hk := intervalOf_pos h.rpt
          by_cases h2 : d ≤ intervalOf h.rpt
          · rw [if_pos h2] at hr; exact absurd hr (by simp)
          · rw [if_neg h2] at hr
            by_cases h3 : d - intervalOf h.rpt < start
            · rw [if_pos h3] at hr; exact absurd hr (by simp)
            · rw [if_neg h3] at hr
              by_cases h4 : is_due_on h (d - intervalOf h.rpt) = true
              · rw [if_pos h4] at hr
                have : d - intervalOf h.rpt = r := Option.some.inj hr
                subst this
                exact ⟨by omega, h4⟩
              · rw [if_neg h4] at hr
                have := ih (d - intervalOf h.rpt) (by omega) r hr
                exact ⟨by omega, this.2⟩
        | weekly =>
          rw [hm] at hr
          dsimp only at hr
          by_cases h2 : d ≤ 7
          · rw [if_pos h2] at hr; exact absurd hr (by simp)
          · rw [if_neg h2] at hr
            by_cases h3 : d - 7 < start
            · rw [if_pos h3] at hr; exact absurd hr (by simp)
            · rw [if_neg h3] at hr
              by_cases h4 : is_due_on h (d - 7) = true
              · rw [if_pos h4] at hr
                have : d - 7 = r := Option.some.inj hr
                subst this
                exact ⟨by omega, h4⟩
              · rw [if_neg h4] at hr
                have := ih (d - 7) (by omega) r hr
                exact ⟨by omega, this.2⟩
        | weekdays =>
          rw [hm] at hr
          dsimp only at hr
          by_cases h2 : d ≤ 1
          · rw [if_pos h2] at hr; exact absurd hr (by simp)
          · rw [if_neg h2] at hr
            rcases hscan : weekdaysScan h (allowedWeekdays h.rpt) start (d - 1) with _ | c
            · rw [hscan] at hr; exact absurd hr (by simp)
            · rw [hscan] at hr
              dsimp only at hr
              by_cases h3 : c < start
              · rw [if_pos h3] at hr; exact absurd hr (by simp)
              · rw [if_neg h3] at hr
                by_cases h4 : is_due_on h c = true
                · rw [if_pos h4] at hr
                  have : c = r := Option.some.inj hr
                  subst this
                  have hle := weekdaysScan_le h (allowedWeekdays h.rpt) start (d - 1) c hscan
                  exact ⟨by omega, h4⟩
                · rw [if_neg h4] at hr; exact absurd hr (by simp)
        | monthly =>
          rw [hm] at hr
          dsimp only at hr
          by_cases h2 : d - ((fromOrdinal d).day - 1) ≤ 1
          · rw [if_pos h2] at hr; exact absurd hr (by simp)
          · rw [if_neg h2] at hr
            by_cases h3 : min (monthDayOf h.rpt start)
                (daysInMonth (fromOrdinal (d - ((fromOrdinal d).day - 1) - 1)).year
                  (fromOrdinal (d - ((fromOrdinal d).day - 1) - 1)).month) = 0
            · rw [if_pos h3] at hr; exact absurd hr (by simp)
            · rw [if_neg h3] at hr
              by_cases h4 : toOrdinal ⟨(fromOrdinal (d - ((fromOrdinal d).day - 1) - 1)).year,
                  (fromOrdinal (d - ((fromOrdinal d).day - 1) - 1)).month,
                  min (monthDayOf h.rpt start)
                    (daysInMonth (fromOrdinal (d - ((fromOrdinal d).day - 1) - 1)).year
                      (fromOrdinal (d - ((fromOrdinal d).day - 1) - 1)).month)⟩ < start
              · rw [if_pos h4] at hr; exact absurd hr (by simp)
              · rw [if_neg h4] at hr
                by_cases h5 : is_due_on h (toOrdinal
                    ⟨(fromOrdinal (d - ((fromOrdinal d).day - 1) - 1)).year,
                      (fromOrdinal (d - ((fromOrdinal d).day - 1) - 1)).month,
                      min (monthDayOf h.rpt start)
                        (daysInMonth (fromOrdinal (d - ((fromOrdinal d).day - 1) - 1)).year
                          (fromOrdinal (d - ((fromOrdinal d).day - 1) - 1)).month)⟩) = true
                · rw [if_pos h5] at hr
                  have hc := Option.some.inj hr
                  subst hc
                  refine ⟨?_, h5⟩
                  exact monthly_candidate_lt d (by omega) _ (Nat.min_le_right _ _) h2
                · rw [if_neg h5] at hr; exact absurd hr (by simp)

/-- One iteration of the while loop of habits.calculate_streak (habits.py
lines 231-242), with the tail call abstracted as rec.  lookup is the
pre-fetched set of completion dates (date_set in the source). -/
def streakBody (h : Habit) (lookup : List Nat) (rec : Nat → Nat) (p : Nat) : Nat :=
  if lookup.contains p && is_due_on h p then
    match previous_due_date h p with
    | none => 1
    | some q => 1 + rec q
  else 0

/-- Fuel-indexed unfolding of the streak loop; the fuel only has to exceed the
pointer because previous_due_date strictly decreases it. -/
def streakAux (h : Habit) (lookup : List Nat) : Nat → Nat → Nat
  | 0, _ => 0
  | fuel + 1, p => streakBody h lookup (streakAux h lookup fuel) p

/-- habits.calculate_streak (habits.py lines 211-242) at the level the spec
describes it: habit, completion-date lookup, reference day. -/
def calculate_streak (h : Habit) (lookup : List Nat) (reference : Nat) : Nat :=
  streakAux h lookup (reference + 1) reference

theorem streakBody_congr (h : Habit) (lookup : List Nat) (r₁ r₂ : Nat → Nat) (p : Nat)
    (hr : ∀ c, c < p → r₁ c = r₂ c) :
    streakBody h lookup r₁ p = streakBody h lookup r₂ p := by
  unfold streakBody
  by_cases hc : (lookup.contains p && is_due_on h p) = true
  · rw [if_pos hc, if_pos hc]
    cases hq : previous_due_date h p with
    | none => rfl
    | some q =>
      have hlt := (prev_sound h p q hq).1
      show 1 + r₁ q = 1 + r₂ q
      rw [hr q hlt]
  · rw [if_neg hc, if_neg hc]

theorem streakAux_invariant (h : Habit) (lookup : List Nat) : ∀ f₁ f₂ p, p < f₁ → p < f₂ →
    streakAux h lookup f₁ p = streakAux h lookup f₂ p := by
  intro f₁
  induction f₁ with
  | zero => intro f₂ p h1; omega
  | succ a ih =>
    intro f₂ p h1 h2
    cases f₂ with
    | zero => omega
    | succ b =>
      show streakBody h lookup (streakAux h lookup a) p
        = streakBody h lookup (streakAux h lookup b) p
      apply streakBody_congr
      intro c hc
      exact ih b c (by omega) (by omega)

/-- The canonical one-step unfolding of calculate_streak. -/
theorem calculate_streak_eq (h : Habit) (lookup : List Nat) (p : Nat) :
    calculate_streak h lookup p = streakBody h lookup (calculate_streak h lookup) p := by
  show streakBody h lookup (streakAux h lookup p) p = _
  apply streakBody_congr
  intro c hc
  exact streakAux_invariant h lookup p (c + 1) c (by omega) (by omega)

/-- A reference day with no completion record contributes nothing. -/
theorem calculate_streak_not_mem (h : Habit) (lookup : List Nat) (r : Nat)
    (hr : r ∉ lookup) : calculate_streak h lookup r = 0 := by
  rw [calculate_streak_eq]
  unfold streakBody
  rw [if_neg]
  intro hc
  rw [Bool.and_eq_true] at hc
  exact hr (List.elem_iff.mp hc.1)

/-- Walking the streak loop down a descending previousDueDate chain whose
elements are all completed and due, stopped below by a day outside the lookup,
counts exactly the chain. -/
theorem streak_chain (h : Habit) (S : List Nat) : ∀ (l : List Nat) (top : Nat),
    List.Chain' (fun a b => previous_due_date h a = some b) (top :: l) →
    (∀ e ∈ top :: l, e ∈ S ∧ is_due_on h e = true) →
    (∀ q, previous_due_date h ((top :: l).getLast (by simp)) = some q → q ∉ S) →
    calculate_streak h S top = l.length + 1 := by
  intro l
  induction l with
  | nil =>
    intro top hchain hmem hstop
    obtain ⟨hmemS, hdue⟩ := hmem top (by simp)
    rw [calculate_streak_eq]
    unfold streakBody
    rw [if_pos (by rw [Bool.and_eq_true]
                   exact ⟨List.elem_iff.mpr hmemS, hdue⟩)]
    cases hq : previous_due_date h top with
    | none => rfl
    | some q =>
      have hq' : q ∉ S := hstop q (by simpa using hq)
      show 1 + calculate_streak h S q = 0 + 1
      rw [calculate_streak_not_mem h S q hq']
  | cons b t ih =>
    intro top hchain hmem hstop
    obtain ⟨hmemS, hdue⟩ := hmem top (by simp)
    rw [calculate_streak_eq]
    unfold streakBody
    rw [if_pos (by rw [Bool.and_eq_true]
                   exact ⟨List.elem_iff.mpr hmemS, hdue⟩)]
    have hlink : previous_due_date h top = some b := (List.chain'_cons.mp hchain).1
    rw [hlink]
    have htail := ih b (List.chain'_cons.mp hchain).2
      (fun e he => hmem e (by simp [he]))
      (by
        intro q hq
        apply hstop q
        rwa [List.getLast_cons (by simp)])
    show 1 + calculate_streak h S b = (b :: t).length + 1
    rw [htail]
    simp [Nat.add_comm]

/-- streak_chain restated for an ascending chain cs (earliest first): the
streak at the last element of cs counts all of cs. -/
theorem streak_chain_asc (hab : Habit) (S : List Nat) (cs : List Nat) (hne : cs ≠ [])
    (hchain : List.Chain' (fun a b => previous_due_date hab b = some a) cs)
    (hmem : ∀ e ∈ cs, e ∈ S ∧ is_due_on hab e = true)
    (hstop : ∀ q, previous_due_date hab (cs.head hne) = some q → q ∉ S)
    (ref : Nat) (href : ref = cs.getLast hne) :
    calculate_streak hab S ref = cs.length := by
  subst href
  obtain ⟨top, l, hrev⟩ : ∃ top l, cs.reverse = top :: l := by
    cases hr : cs.reverse with
    | nil =>
      rw [List.reverse_eq_nil_iff] at hr
      exact absurd hr hne
    | cons a b => exact ⟨a, b, rfl⟩
  have hds : cs = (top :: l).reverse := by rw [← hrev, List.reverse_reverse]
  subst hds
  rw [List.getLast_reverse, List.length_reverse]
  show calculate_streak hab S top = (top :: l).length
  have hchain' : List.Chain' (fun a b => previous_due_date hab a = some b) (top :: l) :=
    List.chain'_reverse.mp hchain
  have hres := streak_chain hab S l top hchain'
    (fun e he => hmem e (List.mem_reverse.mpr he))
    (by
      intro q hq
      apply hstop q
      rwa [List.head_reverse])
  rw [hres]
  simp

/-- In a strictly ascending list the head is a lower bound. -/
theorem head_le_of_sorted (l : List Nat) (hne : l ≠ [])
    (hp : List.Pairwise (fun a b => a < b) l) : ∀ e ∈ l, l.head hne ≤ e := by
  intro e he
  rw [List.mem_iff_get] at he
  obtain ⟨⟨iv, hilt⟩, hi⟩ := he
  rw [List.get_eq_getElem] at hi
  rw [List.head_eq_getElem]
  rcases Nat.eq_zero_or_pos iv with h0 | h0
  · subst h0
    exact le_of_eq hi
  · have hlt := List.pairwise_iff_getElem.mp hp 0 iv (by omega) hilt h0
    rw [hi] at hlt
    exact Nat.le_of_lt hlt

/-- Full-chain instance: the streak at the last chain element counts the whole
chain when the lookup is exactly the chain. -/
theorem streak_full_chain (hab : Habit) (ds : List Nat) (hne : ds ≠ [])
    (hchain : List.Chain' (fun a b => previous_due_date hab b = some a) ds)
    (hdue : ∀ d ∈ ds, is_due_on hab d = true)
    (hsorted : List.Pairwise (fun a b => a < b) ds) :
    calculate_streak hab ds (ds.getLast hne) = ds.length := by
  refine streak_chain_asc hab ds ds hne hchain (fun e he => ⟨he, hdue e he⟩) ?_ _ rfl
  intro q hq hqmem
  have hlt := (prev_sound hab _ q hq).1
  have hle := head_le_of_sorted ds hne hsorted q hqmem
  omega

/-- Gap instance: erasing the middle element at index j from the lookup leaves
only the trailing run after j, so the streak at the last element counts
length - 1 - j occurrences. -/
theorem streak_gap_trailing (hab : Habit) (ds : List Nat) (hne : ds ≠ [])
    (hchain : List.Chain' (fun a b => previous_due_date hab b = some a) ds)
    (hdue : ∀ d ∈ ds, is_due_on hab d = true)
    (hsorted : List.Pairwise (fun a b => a < b) ds)
    (j : Nat) (hj0 : 0 < j) (hjlast : j + 1 < ds.length) :
    calculate_streak hab (ds.eraseIdx j) (ds.getLast hne) = ds.length - 1 - j := by
  have hlen : (ds.drop (j + 1)).length = ds.length - (j + 1) := List.length_drop _ _
  have htne : ds.drop (j + 1) ≠ [] := by
    intro hempty
    have hl0 := congrArg List.length hempty
    rw [hlen] at hl0
    simp at hl0
    omega
  have hlast : ds.getLast hne = (ds.drop (j + 1)).getLast htne := by
    rw [List.getLast_eq_getElem, List.getLast_eq_getElem, List.getElem_drop]
    congr 1
    omega
  have hres : calculate_streak hab (ds.eraseIdx j) (ds.getLast hne)
      = (ds.drop (j + 1)).length := by
    apply streak_chain_asc hab (ds.eraseIdx j) (ds.drop (j + 1)) htne
      (hchain.suffix (List.drop_suffix _ _)) ?_ ?_ (ds.getLast hne) hlast
    · intro e he
      constructor
      · rw [List.eraseIdx_eq_take_drop_succ]
        exact List.mem_append_right _ he
      · exact hdue e (List.mem_of_mem_drop he)
    · intro q hq hqmem
      have hget : (ds.drop (j + 1)).head htne = ds.get ⟨j + 1, by omega⟩ := by
        rw [List.head_drop, List.get_eq_getElem]
      rw [hget] at hq
      have hlink := List.chain'_iff_get.mp hchain j (by omega)
      have hqj : q = ds.get ⟨j, by omega⟩ := by
        have h12 : previous_due_date hab (ds.get ⟨j + 1, by omega⟩)
            = some (ds.get ⟨j, by omega⟩) := hlink
        rw [h12] at hq
        exact (Option.some.inj hq).symm
      subst hqj
      rw [List.eraseIdx_eq_take_drop_succ] at hqmem
      rcases List.mem_append.mp hqmem with hmem1 | hmem2
      · rw [List.mem_iff_get] at hmem1
        obtain ⟨i, hi⟩ := hmem1
        have hiv : i.val < j := Nat.lt_of_lt_of_le i.isLt (List.length_take_le _ _)
        have hlt := List.pairwise_iff_getElem.mp hsorted i.val j (by omega) (by omega) hiv
        rw [List.get_eq_getElem, List.getElem_take] at hi
        exact absurd hi (Nat.ne_of_lt hlt)
      · rw [List.mem_iff_get] at hmem2
        obtain ⟨i, hi⟩ := hmem2
        have hiv : i.val < ds.length - (j + 1) :=
          Nat.lt_of_lt_of_le i.isLt (le_of_eq hlen)
        have hlt := List.pairwise_iff_getElem.mp hsorted j (j + 1 + i.val)
          (by omega) (by omega) (by omega)
        rw [List.get_eq_getElem, List.getElem_drop] at hi
        exact absurd hi.symm (Nat.ne_of_lt hlt)
  rw [hres, hlen]
  omega

/-- C2: given completion records on exactly a gap-free chain of consecutive
due dates d0 < d1 < ... < dn (each the previousDueDate-successor of the next,
each due), the streak at dn is n+1; removing a middle due date dj leaves only
the trailing unbroken run d(j+1)..dn, of length n-j; and a reference day with
no completion record yields a streak of 0. -/
theorem claim_C2_streak_roundtrip (hab : Habit) (ds : List Nat) (hne : ds ≠ [])
    (hchain : List.Chain' (fun a b => previous_due_date hab b = some a) ds)
    (hdue : ∀ d ∈ ds, is_due_on hab d = true) :
    calculate_streak hab ds (ds.getLast hne) = ds.length
    ∧ (∀ j, 0 < j → j + 1 < ds.length →
        calculate_streak hab (ds.eraseIdx j) (ds.getLast hne) = ds.length - 1 - j)
    ∧ (∀ (S : List Nat) (r : Nat), r ∉ S → calculate_streak hab S r = 0) := by
  have hsorted : List.Pairwise (fun a b => a < b) ds := by
    rw [← List.chain'_iff_pairwise]
    exact List.Chain'.imp (fun a b hr => (prev_sound hab b a hr).1) hchain
  exact ⟨streak_full_chain hab ds hne hchain hdue hsorted,
    fun j hj0 hjlast => streak_gap_trailing hab ds hne hchain hdue hsorted j hj0 hjlast,
    fun S r hr => calculate_streak_not_mem hab S r hr⟩

/-- A concrete daily habit used by witnesses: start date ordinal 1. -/
def dailyHabit : Habit :=
  { user_id := 7, start_date := some 1,
    rpt := { mode := RepeatMode.daily },
    reminder := { enabled := false, time := 540 } }

/-- C1: previousDueDate(habit, d), when non-None, returns a date strictly
before d that itself satisfies isDue; this covers all five repeat modes
(daily, weekdays, weekly, monthly, interval). -/
theorem claim_C1_prev_due_sound (h : Habit) (d r : Nat)
    (hr : previous_due_date h d = some r) : r < d ∧ is_due_on h r = true :=
  prev_sound h d r hr

/-- C1 witness: a concrete daily habit, where previousDueDate 5 = some 4. -/
theorem claim_C1_witness : 4 < 5 ∧ is_due_on dailyHabit 4 = true :=
  claim_C1_prev_due_sound dailyHabit 5 4 (by decide)

/-- C2 witness: the chain 5 < 6 < 7 of daily due dates, fully completed,
gives streak 3 at day 7. -/
theorem claim_C2_witness : calculate_streak dailyHabit [5, 6, 7] 7 = 3 :=
  (claim_C2_streak_roundtrip dailyHabit [5, 6, 7] (by decide)
    (List.chain'_cons.mpr ⟨by decide,
      List.chain'_cons.mpr ⟨by decide, List.chain'_singleton 7⟩⟩)
    (by decide)).1

/-- The Interval{3} habit of the spec scenario, starting 2024-01-01. -/
def intervalHabit3 : Habit :=
  { user_id := 7, start_date := some (toOrdinal ⟨2024, 1, 1⟩),
    rpt := { mode := RepeatMode.interval, interval_days := some 3 },
    reminder := { enabled := false, time := 540 } }

/-- C3 counterexample: from 2024-01-09 the engine does NOT return 2024-01-06;
the subtract-N candidate fails the is_due_on check (offset 5 mod 3 is not 0),
the interval branch recurses, and the walk drops below start_date, so the
result is None. -/
theorem claim_C3_counterexample :
    previous_due_date intervalHabit3 (toOrdinal ⟨2024, 1, 9⟩) = none
    ∧ previous_due_date intervalHabit3 (toOrdinal ⟨2024, 1, 9⟩)
      ≠ some (toOrdinal ⟨2024, 1, 6⟩) := by
  constructor
  · decide
  · decide

/-- C3 amended: the interval engine subtracts N days but then due-checks the
candidate and recurses on failure, so previousDueDate(habit, 2024-01-09) is
None (offsets 5 and 2 are not multiples of 3), while from the aligned day
2024-01-10 it returns 2024-01-07 (offset 6). -/
theorem claim_C3_interval_amended :
    previous_due_date intervalHabit3 (toOrdinal ⟨2024, 1, 9⟩) = none
    ∧ previous_due_date intervalHabit3 (toOrdinal ⟨2024, 1, 10⟩)
      = some (toOrdinal ⟨2024, 1, 7⟩) := by
  constructor
  · decide
  · decide

/-- C4: for any habit with repeat Monthly, month_day = 31, whose start date is
at or before 2024-02-29 and whose target date (if any) is at or after
2024-03-31, isDue holds on 2024-02-29 (day-of-month clamped to the leap
February's last day) and previousDueDate from 2024-03-31 is 2024-02-29. -/
theorem claim_C4_monthly_clamp (h : Habit) (s : Nat)
    (hmode : h.rpt.mode = RepeatMode.monthly)
    (hmd : h.rpt.month_day = some 31)
    (hs : h.start_date = some s)
    (hs2 : s ≤ toOrdinal ⟨2024, 2, 29⟩)
    (ht : h.target_date = none ∨
      ∃ t, h.target_date = some t ∧ toOrdinal ⟨2024, 3, 31⟩ ≤ t) :
    is_due_on h (toOrdinal ⟨2024, 2, 29⟩) = true
    ∧ previous_due_date h (toOrdinal ⟨2024, 3, 31⟩)
      = some (toOrdinal ⟨2024, 2, 29⟩) := by
  have hmd31 : monthDayOf h.rpt s = 31 := by
    unfold monthDayOf
    rw [hmd]
  have hdue : is_due_on h (toOrdinal ⟨2024, 2, 29⟩) = true := by
    unfold is_due_on
    rw [hs]
    dsimp only
    rw [if_neg (show ¬ (toOrdinal ⟨2024, 2, 29⟩ < s) by omega)]
    rcases ht with htn | ⟨t, htd, htge⟩
    · rw [htn]
      dsimp only
      rw [if_neg (by simp)]
      rw [hmode]
      dsimp only
      rw [hmd31]
      decide
    · rw [htd]
      dsimp only
      rw [if_neg (by
        simp only [decide_eq_true_eq]
        have : toOrdinal ⟨2024, 2, 29⟩ < toOrdinal ⟨2024, 3, 31⟩ := by decide
        omega)]
      rw [hmode]
      dsimp only
      rw [hmd31]
      decide
  refine ⟨hdue, ?_⟩
  rw [previous_due_date_eq]
  unfold prevBody
  rw [hs]
  dsimp only
  rw [if_neg (show ¬ (toOrdinal ⟨2024, 3, 31⟩ ≤ s) by
    have : toOrdinal ⟨2024, 2, 29⟩ < toOrdinal ⟨2024, 3, 31⟩ := by decide
    omega)]
  rw [hmode]
  dsimp only
  rw [show fromOrdinal (toOrdinal ⟨2024, 3, 31⟩) = ⟨2024, 3, 31⟩ from by decide]
  dsimp only
  rw [if_neg (show ¬ (toOrdinal ⟨2024, 3, 31⟩ - (31 - 1) ≤ 1) from by decide)]
  rw [show fromOrdinal (toOrdinal ⟨2024, 3, 31⟩ - (31 - 1) - 1) = ⟨2024, 2, 29⟩
    from by decide]
  dsimp only
  rw [hmd31]
  rw [show daysInMonth 2024 2 = 29 from by decide]
  rw [show min 31 29 = 29 from by decide]
  rw [if_neg (show ¬ (29 = 0) from by decide)]
  rw [if_neg (show ¬ (toOrdinal ⟨2024, 2, 29⟩ < s) by omega)]
  rw [if_pos hdue]

/-- The Monthly{31} habit of the spec scenario, starting 2024-01-01. -/
def monthlyHabit31 : Habit :=
  { user_id := 7, start_date := some (toOrdinal ⟨2024, 1, 1⟩),
    rpt := { mode := RepeatMode.monthly, month_day := some 31 },
    reminder := { enabled := false, time := 540 } }

/-- C4 witness: the concrete Monthly{31} habit starting 2024-01-01. -/
theorem claim_C4_witness :
    is_due_on monthlyHabit31 (toOrdinal ⟨2024, 2, 29⟩) = true
    ∧ previous_due_date monthlyHabit31 (toOrdinal ⟨2024, 3, 31⟩)
      = some (toOrdinal ⟨2024, 2, 29⟩) :=
  claim_C4_monthly_clamp monthlyHabit31 (toOrdinal ⟨2024, 1, 1⟩) rfl rfl rfl
    (by decide) (Or.inl rfl)

theorem intervalOf_eq_one (r : RepeatConfig)
    (hv : r.interval_days = none ∨ ∃ v, r.interval_days = some v ∧ v ≤ 0) :
    intervalOf r = 1 := by
  unfold intervalOf
  rcases hv with hn | ⟨v, hv, hv0⟩
  · rw [hn]
    decide
  · rw [hv]
    dsimp only
    by_cases hz : v = 0
    · rw [if_pos hz]
      decide
    · rw [if_neg hz]
      have hm : (1 : Int) ⊔ v = 1 := sup_eq_left.mpr (by omega)
      rw [hm]
      decide

/-- C9: when a repeat configuration omits its mode parameter, isDue falls back
to anchors derived from start_date: Weekly with no week_day behaves as if the
anchor were start_date's weekday, Monthly with no month_day as if it were
start_date's day-of-month, and Interval with a missing or non-positive
interval_days as interval 1. -/
theorem claim_C9_fallbacks :
    (∀ (h : Habit) (day s : Nat), h.rpt.mode = RepeatMode.weekly →
      h.rpt.week_day = none → h.start_date = some s →
      is_due_on h day
        = is_due_on { h with rpt := { h.rpt with week_day := some (weekday s) } } day)
    ∧ (∀ (h : Habit) (day s : Nat), h.rpt.mode = RepeatMode.monthly →
      h.rpt.month_day = none → h.start_date = some s →
      is_due_on h day
        = is_due_on { h with rpt :=
            { h.rpt with month_day := some ((fromOrdinal s).day) } } day)
    ∧ (∀ (h : Habit) (day : Nat), h.rpt.mode = RepeatMode.interval →
      (h.rpt.interval_days = none ∨ ∃ v, h.rpt.interval_days = some v ∧ v ≤ 0) →
      is_due_on h day
        = is_due_on { h with rpt := { h.rpt with interval_days := some 1 } } day) := by
  refine ⟨?_, ?_, ?_⟩
  · intro h day s hmode hw hs
    unfold is_due_on
    rw [hs]
    dsimp only
    rw [hmode, hw]
  · intro h day s hmode hm hs
    unfold is_due_on
    rw [hs]
    dsimp only
    rw [hmode]
    dsimp only
    unfold monthDayOf
    rw [hm]
    dsimp only
    cases hd : (fromOrdinal s).day with
    | zero => rfl
    | succ k => rfl
  · intro h day hmode hv
    unfold is_due_on
    cases hsd : h.start_date with
    | none => rfl
    | some s =>
      dsimp only
      rw [hmode]
      dsimp only
      rw [intervalOf_eq_one h.rpt hv]
      rfl

/-- A weekly habit with no stored week_day, for the C9 witness. -/
def weeklyHabitNone : Habit :=
  { user_id := 7, start_date := some 1,
    rpt := { mode := RepeatMode.weekly },
    reminder := { enabled := false, time := 540 } }

/-- C9 witness: the weekly fallback conjunct applied at a concrete habit. -/
theorem claim_C9_witness :
    is_due_on weeklyHabitNone 8
      = is_due_on { weeklyHabitNone with rpt :=
          { weeklyHabitNone.rpt with week_day := some (weekday 1) } } 8 :=
  claim_C9_fallbacks.1 weeklyHabitNone 8 1 rfl rfl rfl

/-- Python's str.strip() on a list of characters: drop whitespace from both
ends (create_habit.py line 171: (message.text or "").strip()). -/
def pyStrip (text : List Char) : List Char :=
  ((text.dropWhile Char.isWhitespace).reverse.dropWhile Char.isWhitespace).reverse

/-- The name check of handlers.create_habit.create_set_name (create_habit.py
lines 171-177): the trimmed name is rejected exactly when len(name) < 2; the
handler answers with an error and returns before any state/database write. -/
def create_set_name_accepts (text : List Char) : Bool :=
  ! decide ((pyStrip text).length < 2)

/-- C8 counterexample: the single-character name "a" has trimmed length 1,
inside the claimed 1-50 window, yet the handler rejects it; and a
51-character name, outside the claimed window, is accepted (no upper bound
is enforced). -/
theorem claim_C8_counterexample :
    create_set_name_accepts ['a'] = false
    ∧ 1 ≤ (pyStrip ['a']).length ∧ (pyStrip ['a']).length ≤ 50
    ∧ create_set_name_accepts (List.replicate 51 'a') = true
    ∧ 50 < (pyStrip (List.replicate 51 'a')).length := by
  decide

/-- C8 amended: the creation dialog validates the habit name before any
write, but the rule is: reject exactly when the whitespace-trimmed name has
fewer than 2 characters; there is no 50-character upper bound, and the
service-level create_habit performs no name validation of its own. -/
theorem claim_C8_name_validation_amended (text : List Char) :
    create_set_name_accepts text = true ↔ 2 ≤ (pyStrip text).length := by
  unfold create_set_name_accepts
  simp

/-- C8 witness: a two-character name is accepted. -/
theorem claim_C8_witness : create_set_name_accepts ['a', 'b'] = true :=
  (claim_C8_name_validation_amended ['a', 'b']).mpr (by decide)

/-- The persistence store: the habits collection (as (_id, document) pairs;
Mongo _id values are unique) and the completion-records collection as
(habit_id, user_id, date) keys.  Record payload fields (status, created_at)
are never read by the core and are omitted. -/
structure Store where
  habits : List (Nat × Habit)
  records : List (Nat × Nat × Nat)
deriving DecidableEq, Repr

/-- habits.get_habit (habits.py lines 123-129): find_one by _id and user_id. -/
def get_habit (s : Store) (hid uid : Nat) : Option Habit :=
  (s.habits.find? (fun p => p.1 == hid && p.2.user_id == uid)).map (fun p => p.2)

/-- habits.has_completion_on_date (habits.py lines 293-302). -/
def has_completion_on_date (s : Store) (hid uid day : Nat) : Bool :=
  s.records.any (fun r => r.1 == hid && r.2.1 == uid && r.2.2 == day)

def insertDesc (x : Nat) : List Nat → List Nat
  | [] => [x]
  | y :: ys => if y ≤ x then x :: y :: ys else y :: insertDesc x ys

/-- Sort descending (the sort("date", -1) of the records query). -/
def sortDesc (l : List Nat) : List Nat := l.foldr insertDesc []

/-- The date_set construction of habits.calculate_streak (habits.py lines
213-224): dates of records for the habit at or before the reference day,
newest first, cut off after 381 entries (the loop appends, then breaks once
len(dates) > 380). -/
def streak_dates (s : Store) (hid reference : Nat) : List Nat :=
  (sortDesc ((s.records.filter
    (fun r => r.1 == hid && decide (r.2.2 ≤ reference))).map
      (fun r => r.2.2))).take 381

/-- habits.mark_completed (habits.py lines 165-208): fetch the habit by id and
owner, refuse archived or missing habits, upsert the completion record keyed
by (habit_id, user_id, date); when the record already exists return
wasNewlyRecorded = false with the unchanged habit, otherwise insert it,
recompute the streak from the store, and write the cached fields back.
now stands for the utcnow() timestamp. -/
def mark_completed (s : Store) (hid uid day now : Nat) :
    (Bool × Option Habit) × Store :=
  match get_habit s hid uid with
  | none => ((false, none), s)
  | some h =>
    if h.archived then ((false, none), s)
    else if s.records.any (fun r => r.1 == hid && r.2.1 == uid && r.2.2 == day) then
      ((false, some h), s)
    else
      let s1 : Store := { s with records := (hid, uid, day) :: s.records }
      let streak := calculate_streak h (streak_dates s1 hid day) day
      let best := max h.best_streak streak
      let h' : Habit := { h with
        current_streak := streak,
        best_streak := best,
        last_completed_on := some day,
        updated_at := now,
        reminder := { h.reminder with last_sent_date := some day } }
      ((true, some h'),
       { s1 with habits := s1.habits.map (fun p => if p.1 == hid then (p.1, h') else p) })

/-- habits.archive_habit (habits.py lines 132-138): update_one by _id and
user_id setting archived and updated_at; the returned Bool is
modified_count > 0, i.e. whether the matched document actually changed. -/
def archive_habit (s : Store) (hid uid now : Nat) : Bool × Store :=
  match s.habits.find? (fun p => p.1 == hid && p.2.user_id == uid) with
  | none => (false, s)
  | some p =>
    let h' : Habit := { p.2 with archived := true, updated_at := now }
    (decide (h' ≠ p.2),
     { s with habits := s.habits.map (fun q =>
        if q.1 == hid && q.2.user_id == uid then (q.1, h') else q) })

/-- An already archived habit document with stored timestamp 0. -/
def archivedHabit : Habit :=
  { user_id := 7, start_date := some 1, archived := true,
    rpt := { mode := RepeatMode.daily },
    reminder := { enabled := false, time := 540 }, updated_at := 0 }

/-- C10 counterexample: archiving an existing, owned, ALREADY archived habit
returns True (the $set always rewrites updated_at, so the document is
modified whenever the fresh timestamp differs), contradicting the claim that
it returns False. -/
theorem claim_C10_counterexample :
    (archive_habit ⟨[(1, archivedHabit)], []⟩ 1 7 1).1 = true
    ∧ archivedHabit.archived = true := by
  decide

/-- C10 amended: archiveHabit returns False when the habit is missing or
owned by another user; for an existing owned habit it returns True exactly
when the write changes the document, i.e. when the habit was not yet archived
or the fresh updated_at differs from the stored one.  An already-archived
habit therefore still yields True whenever the timestamp changes (virtually
always), so a caller cannot read 'already archived' out of a False return --
False additionally requires the degenerate timestamp collision. -/
theorem claim_C10_archive_amended (s : Store) (hid uid now : Nat) :
    (s.habits.find? (fun p => p.1 == hid && p.2.user_id == uid) = none →
      (archive_habit s hid uid now).1 = false)
    ∧ (∀ p, s.habits.find? (fun p => p.1 == hid && p.2.user_id == uid) = some p →
      ((archive_habit s hid uid now).1 = true
        ↔ (p.2.archived = false ∨ p.2.updated_at ≠ now))) := by
  constructor
  · intro hf
    unfold archive_habit
    rw [hf]
  · intro p hf
    unfold archive_habit
    rw [hf]
    dsimp only
    simp only [decide_eq_true_eq]
    have key : ({ p.2 with archived := true, updated_at := now } = p.2)
        ↔ (p.2.archived = true ∧ p.2.updated_at = now) := by
      constructor
      · intro he
        constructor
        · rw [← he]
        · rw [← he]
      · rintro ⟨h1, h2⟩
        have he2 : ({ p.2 with
            archived := p.2.archived,
            updated_at := p.2.updated_at } : Habit) = p.2 := rfl
        conv_rhs => rw [← he2]
        rw [h1, h2]
    rw [Ne, key]
    constructor
    · intro hne
      by_cases ha : p.2.archived = true
      · by_cases hu : p.2.updated_at = now
        · exact absurd ⟨ha, hu⟩ hne
        · exact Or.inr hu
      · exact Or.inl (by
          cases hb : p.2.archived
          · rfl
          · exact absurd hb ha)
    · rintro (h1 | h2)
      · rintro ⟨ha, _⟩
        rw [h1] at ha
        exact Bool.false_ne_true ha
      · rintro ⟨_, hu⟩
        exact h2 hu

/-- C10 witness: the amended equivalence evaluated at the concrete
already-archived habit with a fresh timestamp. -/
theorem claim_C10_witness :
    (archive_habit ⟨[(1, archivedHabit)], []⟩ 1 7 1).1 = true
      ↔ (archivedHabit.archived = false ∨ archivedHabit.updated_at ≠ 1) :=
  (claim_C10_archive_amended ⟨[(1, archivedHabit)], []⟩ 1 7 1).2
    (1, archivedHabit) (by decide)

/-- After the write-back map of mark_completed, looking the habit up again by
(id, owner) yields the updated document: every entry with the habit's id is
rewritten, entries with other ids keep failing the id test. -/
theorem find_map_update (habits : List (Nat × Habit)) (hid uid : Nat) (h' : Habit)
    (hex : (habits.find? (fun p => p.1 == hid && p.2.user_id == uid)).isSome)
    (huser : h'.user_id = uid) :
    (habits.map (fun p => if p.1 == hid then (p.1, h') else p)).find?
      (fun p => p.1 == hid && p.2.user_id == uid) = some (hid, h') := by
  induction habits with
  | nil => simp at hex
  | cons p ps ih =>
    rw [List.map_cons]
    by_cases hp : (p.1 == hid) = true
    · rw [if_pos hp]
      have hpe : p.1 = hid := by simpa using hp
      rw [List.find?_cons_of_pos]
      · rw [hpe]
      · dsimp only
        rw [hp, huser]
        simp
    · rw [if_neg hp]
      rw [List.find?_cons_of_neg, ih]
      · rw [List.find?_cons_of_neg] at hex
        · exact hex
        · dsimp only
          rw [Bool.eq_false_iff.mpr hp]
          simp
      · dsimp only
        rw [Bool.eq_false_iff.mpr hp]
        simp

/-- C6: whenever mark_completed records a new completion, the returned (and
stored) habit's best_streak is exactly max(previous best_streak, new
current_streak), hence best_streak is at least current_streak in every state
a completion update produces. -/
theorem claim_C6_best_streak_invariant (s : Store) (hid uid day now : Nat)
    (h h' : Habit)
    (hget : get_habit s hid uid = some h)
    (hres : (mark_completed s hid uid day now).1 = (true, some h')) :
    h'.best_streak = max h.best_streak h'.current_streak
    ∧ h'.current_streak ≤ h'.best_streak := by
  unfold mark_completed at hres
  rw [hget] at hres
  dsimp only at hres
  by_cases ha : h.archived = true
  · rw [if_pos ha] at hres
    exact absurd (congrArg Prod.fst hres) (by simp)
  · rw [if_neg ha] at hres
    by_cases hex : (s.records.any
        (fun r => r.1 == hid && r.2.1 == uid && r.2.2 == day)) = true
    · rw [if_pos hex] at hres
      exact absurd (congrArg Prod.fst hres) (by simp)
    · rw [if_neg hex] at hres
      injection hres with h1 h2
      injection h2 with h3
      subst h3
      constructor
      · rfl
      · exact Nat.le_max_right _ _

/-- The habit document produced by marking day 5 on the fresh daily habit. -/
def markedDaily : Habit :=
  ((mark_completed ⟨[(1, dailyHabit)], []⟩ 1 7 5 11).1.2).getD dailyHabit

/-- C6 witness: the invariant instantiated at the concrete completion. -/
theorem claim_C6_witness :
    markedDaily.best_streak = max dailyHabit.best_streak markedDaily.current_streak
    ∧ markedDaily.current_streak ≤ markedDaily.best_streak :=
  claim_C6_best_streak_invariant ⟨[(1, dailyHabit)], []⟩ 1 7 5 11 dailyHabit markedDaily
    (by decide) (by decide)

/-- C5: markCompleted is idempotent per (habit, date): for an existing
non-archived habit, a second call with the same date returns
wasNewlyRecorded = false and leaves the entire store -- in particular the
habit's stored current_streak, best_streak, last_completed_on and
reminder.last_sent_date -- exactly as the first call left it. -/
theorem claim_C5_mark_idempotent (s : Store) (hid uid day now1 now2 : Nat) (h : Habit)
    (hget : get_habit s hid uid = some h) (harch : h.archived = false) :
    (mark_completed (mark_completed s hid uid day now1).2 hid uid day now2).1.1 = false
    ∧ (mark_completed (mark_completed s hid uid day now1).2 hid uid day now2).2
      = (mark_completed s hid uid day now1).2 := by
  have hfind : (s.habits.find? (fun p => p.1 == hid && p.2.user_id == uid)).isSome := by
    unfold get_habit at hget
    cases hfq : s.habits.find? (fun p => p.1 == hid && p.2.user_id == uid) with
    | none => rw [hfq] at hget; simp at hget
    | some q => rfl
  have huid : h.user_id = uid := by
    unfold get_habit at hget
    cases hfq : s.habits.find? (fun p => p.1 == hid && p.2.user_id == uid) with
    | none => rw [hfq] at hget; simp at hget
    | some q =>
      have hpq := List.find?_some hfq
      rw [hfq] at hget
      simp at hget
      rw [Bool.and_eq_true] at hpq
      have h2 := hpq.2
      rw [← hget]
      simpa using h2
  by_cases hex : (s.records.any
      (fun r => r.1 == hid && r.2.1 == uid && r.2.2 == day)) = true
  · -- the first call was already a no-op: the record pre-existed
    have h1 : mark_completed s hid uid day now1 = ((false, some h), s) := by
      unfold mark_completed
      rw [hget]
      dsimp only
      rw [if_neg (by simp [harch]), if_pos hex]
    have h2 : mark_completed s hid uid day now2 = ((false, some h), s) := by
      unfold mark_completed
      rw [hget]
      dsimp only
      rw [if_neg (by simp [harch]), if_pos hex]
    rw [h1, h2]
    exact ⟨rfl, rfl⟩
  · -- the first call inserted the record and rewrote the habit
    have hmark : ∃ h', mark_completed s hid uid day now1 = ((true, some h'),
        ⟨s.habits.map (fun p => if p.1 == hid then (p.1, h') else p),
         (hid, uid, day) :: s.records⟩)
        ∧ h'.user_id = h.user_id ∧ h'.archived = h.archived := by
      unfold mark_completed
      rw [hget]
      dsimp only
      rw [if_neg (by simp [harch]), if_neg hex]
      exact ⟨_, rfl, rfl, rfl⟩
    obtain ⟨h', hmk, huser', harch'⟩ := hmark
    rw [hmk]
    have hget2 : get_habit
        ⟨s.habits.map (fun p => if p.1 == hid then (p.1, h') else p),
         (hid, uid, day) :: s.records⟩ hid uid = some h' := by
      unfold get_habit
      rw [find_map_update s.habits hid uid h' hfind (by rw [huser', huid])]
      rfl
    have hany2 : (((hid, uid, day) :: s.records).any
        (fun r => r.1 == hid && r.2.1 == uid && r.2.2 == day)) = true := by
      simp
    have h2 : mark_completed
        ⟨s.habits.map (fun p => if p.1 == hid then (p.1, h') else p),
         (hid, uid, day) :: s.records⟩ hid uid day now2
        = ((false, some h'),
           ⟨s.habits.map (fun p => if p.1 == hid then (p.1, h') else p),
            (hid, uid, day) :: s.records⟩) := by
      unfold mark_completed
      rw [hget2]
      dsimp only
      rw [if_neg (by rw [harch']; simp [harch]), if_pos hany2]
    rw [h2]
    exact ⟨rfl, rfl⟩

/-- C5 witness: double-marking day 5 on the fresh daily habit. -/
theorem claim_C5_witness :
    (mark_completed (mark_completed ⟨[(1, dailyHabit)], []⟩ 1 7 5 11).2 1 7 5 12).1.1
      = false
    ∧ (mark_completed (mark_completed ⟨[(1, dailyHabit)], []⟩ 1 7 5 11).2 1 7 5 12).2
      = (mark_completed ⟨[(1, dailyHabit)], []⟩ 1 7 5 11).2 :=
  claim_C5_mark_idempotent ⟨[(1, dailyHabit)], []⟩ 1 7 5 11 12 dailyHabit
    (by decide) (by decide)

/-- The per-habit condition of the reminder sweep (reminders.py lines 84-95):
reminder enabled, its time at or before the current local time, not already
sent today, the habit due today, and no completion recorded for today. -/
def shouldRemind (s : Store) (uid : Nat) (p : Nat × Habit) (today timeNow : Nat) : Bool :=
  p.2.reminder.enabled && decide (p.2.reminder.time ≤ timeNow)
    && !(p.2.reminder.last_sent_date == some today)
    && is_due_on p.2 today
    && !(has_completion_on_date s p.1 uid today)

/-- The field update a sent reminder applies to a habit document
(reminders.py lines 97-105): reminder.last_sent_date := today and a fresh
updated_at. -/
def lastSentUpd (today now : Nat) (h : Habit) : Habit :=
  { h with
    reminder := { h.reminder with last_sent_date := some today },
    updated_at := now }

/-- The write after a reminder is sent: apply lastSentUpd to the habit's
document (update_one by _id). -/
def setLastSent (st : Store) (hid today now : Nat) : Store :=
  { st with habits := st.habits.map (fun q =>
      if q.1 == hid then (q.1, lastSentUpd today now q.2) else q) }

/-- One sweep of ReminderService.tick for one user (reminders.py lines
74-105): iterate over the snapshot of the user's active habits, emit a
(habit_id, day) notification for each habit passing shouldRemind, and mark it
as sent.  today/timeNow are the user's local date and local minutes-of-day;
now is the utcnow() timestamp. -/
def tick (s : Store) (uid today timeNow now : Nat) : List (Nat × Nat) × Store :=
  (s.habits.filter (fun p => p.2.user_id == uid && !p.2.archived)).foldl
    (fun acc p =>
      if shouldRemind s uid p today timeNow then
        (acc.1 ++ [(p.1, today)], setLastSent acc.2 p.1 today now)
      else acc)
    ([], s)

/-- A sequence of sweeps, each receiving its own (today, timeNow, now). -/
def runTicks (s : Store) (uid : Nat) : List (Nat × Nat × Nat) → List (Nat × Nat) × Store
  | [] => ([], s)
  | (t, tm, nw) :: rest =>
    let r1 := tick s uid t tm nw
    let r2 := runTicks r1.2 uid rest
    (r1.1 ++ r2.1, r2.2)

/-- Habit lookup by document id only (the update_one filter of the sweep). -/
def getHById (s : Store) (hid : Nat) : Option Habit :=
  (s.habits.find? (fun p => p.1 == hid)).map (fun p => p.2)

/-- The sweep's emissions are exactly the active habits passing shouldRemind,
tagged with the sweep's day. -/
theorem tick_emissions (s : Store) (uid t tm nw : Nat) :
    (tick s uid t tm nw).1
      = ((s.habits.filter (fun p => p.2.user_id == uid && !p.2.archived)).filter
          (fun p => shouldRemind s uid p t tm)).map (fun p => (p.1, t)) := by
  unfold tick
  have aux : ∀ (l : List (Nat × Habit)) (acc : List (Nat × Nat)) (st : Store),
      (l.foldl (fun acc p =>
        if shouldRemind s uid p t tm then
          (acc.1 ++ [(p.1, t)], setLastSent acc.2 p.1 t nw)
        else acc) (acc, st)).1
        = acc ++ (l.filter (fun p => shouldRemind s uid p t tm)).map (fun p => (p.1, t)) := by
    intro l
    induction l with
    | nil => intro acc st; simp
    | cons p ps ih =>
      intro acc st
      rw [List.foldl_cons, List.filter_cons]
      by_cases hp : shouldRemind s uid p t tm = true
      · rw [if_pos hp, if_pos hp, ih]
        simp
      · rw [if_neg hp, if_neg hp, ih]
  rw [aux]
  simp

/-- Every emission of a sweep carries the sweep's day. -/
theorem tick_emission_day (s : Store) (uid t tm nw hid d : Nat)
    (hmem : (hid, d) ∈ (tick s uid t tm nw).1) : d = t := by
  rw [tick_emissions] at hmem
  obtain ⟨p, _, hp2⟩ := List.mem_map.mp hmem
  exact (Prod.mk.injEq _ _ _ _ ▸ hp2).2.symm

theorem setLastSent_ids (st : Store) (hid today now : Nat) :
    (setLastSent st hid today now).habits.map Prod.fst = st.habits.map Prod.fst := by
  unfold setLastSent
  dsimp only
  rw [List.map_map]
  apply List.map_congr_left
  intro q _
  simp only [Function.comp_apply]
  by_cases hq : (q.1 == hid) = true
  · rw [if_pos hq]
  · rw [if_neg hq]

theorem find_id_map (l : List (Nat × Habit)) (hid : Nat) (f : Habit → Habit) :
    (l.map (fun q => if q.1 == hid then (q.1, f q.2) else q)).find?
      (fun p => p.1 == hid)
      = (l.find? (fun p => p.1 == hid)).map (fun q => (q.1, f q.2)) := by
  induction l with
  | nil => simp
  | cons q qs ih =>
    rw [List.map_cons]
    by_cases hq : (q.1 == hid) = true
    · rw [if_pos hq, List.find?_cons_of_pos _ (by exact hq),
        List.find?_cons_of_pos _ (by exact hq)]
      rfl
    · rw [if_neg hq, List.find?_cons_of_neg _ (by exact hq),
        List.find?_cons_of_neg _ (by exact hq), ih]

theorem find_id_map_other (l : List (Nat × Habit)) (hid hid' : Nat) (f : Habit → Habit)
    (hne : hid' ≠ hid) :
    (l.map (fun q => if q.1 == hid then (q.1, f q.2) else q)).find?
      (fun p => p.1 == hid')
      = l.find? (fun p => p.1 == hid') := by
  induction l with
  | nil => simp
  | cons q qs ih =>
    rw [List.map_cons]
    by_cases hq : (q.1 == hid) = true
    · have hq' : (q.1 == hid') = false := by
        have : q.1 = hid := by simpa using hq
        subst this
        simpa using fun he => hne he.symm
      rw [if_pos hq, List.find?_cons_of_neg _ (by simp [hq']),
        List.find?_cons_of_neg _ (by simp [hq'])]
      exact ih
    · rw [if_neg hq]
      by_cases hq' : (q.1 == hid') = true
      · rw [List.find?_cons_of_pos _ (by exact hq'),
          List.find?_cons_of_pos _ (by exact hq')]
      · rw [List.find?_cons_of_neg _ (by simp at hq' ⊢; exact hq'),
          List.find?_cons_of_neg _ (by simp at hq' ⊢; exact hq')]
        exact ih

theorem getHById_setLastSent_same (st : Store) (hid today now : Nat) :
    getHById (setLastSent st hid today now) hid
      = (getHById st hid).map (lastSentUpd today now) := by
  unfold getHById setLastSent
  dsimp only
  rw [find_id_map]
  cases st.habits.find? (fun p => p.1 == hid) with
  | none => rfl
  | some q => rfl

theorem getHById_setLastSent_other (st : Store) (hid hid' today now : Nat)
    (hne : hid' ≠ hid) :
    getHById (setLastSent st hid today now) hid' = getHById st hid' := by
  unfold getHById setLastSent
  dsimp only
  rw [find_id_map_other _ _ _ _ hne]

theorem lastSentUpd_idem (t nw : Nat) (h : Habit) :
    lastSentUpd t nw (lastSentUpd t nw h) = lastSentUpd t nw h := rfl

/-- A sweep leaves the list of habit document ids unchanged. -/
theorem tick_ids (s : Store) (uid t tm nw : Nat) :
    (tick s uid t tm nw).2.habits.map Prod.fst = s.habits.map Prod.fst := by
  unfold tick
  have aux : ∀ (l : List (Nat × Habit)) (acc : List (Nat × Nat)) (st : Store),
      ((l.foldl (fun acc p =>
        if shouldRemind s uid p t tm then
          (acc.1 ++ [(p.1, t)], setLastSent acc.2 p.1 t nw)
        else acc) (acc, st)).2).habits.map Prod.fst = st.habits.map Prod.fst := by
    intro l
    induction l with
    | nil => intro acc st; rfl
    | cons p ps ih =>
      intro acc st
      rw [List.foldl_cons]
      by_cases hp : shouldRemind s uid p t tm = true
      · rw [if_pos hp, ih, setLastSent_ids]
      · rw [if_neg hp, ih]
  exact aux _ [] s

/-- How a sweep's store-writes affect a single habit id: untouched unless the
id was emitted, and updated by lastSentUpd when it was. -/
theorem tick_fold_spec (s : Store) (uid t tm nw : Nat) :
    ∀ (l : List (Nat × Habit)) (acc : List (Nat × Nat)) (st : Store) (hid : Nat),
    (hid ∉ (l.filter (fun p => shouldRemind s uid p t tm)).map Prod.fst →
      getHById ((l.foldl (fun acc p =>
        if shouldRemind s uid p t tm then
          (acc.1 ++ [(p.1, t)], setLastSent acc.2 p.1 t nw)
        else acc) (acc, st)).2) hid = getHById st hid)
    ∧ (hid ∈ (l.filter (fun p => shouldRemind s uid p t tm)).map Prod.fst →
      getHById ((l.foldl (fun acc p =>
        if shouldRemind s uid p t tm then
          (acc.1 ++ [(p.1, t)], setLastSent acc.2 p.1 t nw)
        else acc) (acc, st)).2) hid = (getHById st hid).map (lastSentUpd t nw)) := by
  intro l
  induction l with
  | nil =>
    intro acc st hid
    exact ⟨fun _ => rfl, fun hmem => absurd hmem (by simp)⟩
  | cons p ps ih =>
    intro acc st hid
    rw [List.foldl_cons, List.filter_cons]
    by_cases hp : shouldRemind s uid p t tm = true
    · rw [if_pos hp, if_pos hp]
      constructor
      · intro hmemx
        have hh : hid ≠ p.1 := by
          intro he
          exact hmemx (by simp [he])
        have hmem2 : hid ∉ (ps.filter
            (fun p => shouldRemind s uid p t tm)).map Prod.fst := by
          intro hc
          exact hmemx (by simp [hc])
        rw [(ih _ _ hid).1 hmem2, getHById_setLastSent_other _ _ _ _ _ hh]
      · intro hmemx
        by_cases hh : hid = p.1
        · by_cases hmem2 : hid ∈ (ps.filter
              (fun p => shouldRemind s uid p t tm)).map Prod.fst
          · rw [(ih _ _ hid).2 hmem2, hh, getHById_setLastSent_same]
            cases getHById st p.1 with
            | none => rfl
            | some x => rfl
          · rw [(ih _ _ hid).1 hmem2, hh, getHById_setLastSent_same]
        · have hmem2 : hid ∈ (ps.filter
              (fun p => shouldRemind s uid p t tm)).map Prod.fst := by
            rcases (by simpa using hmemx :
                hid = p.1 ∨ hid ∈ (ps.filter
                  (fun p => shouldRemind s uid p t tm)).map Prod.fst) with he | ht
            · exact absurd he hh
            · exact ht
          rw [(ih _ _ hid).2 hmem2, getHById_setLastSent_other _ _ _ _ _ hh]
    · rw [if_neg hp, if_neg hp]
      exact ih _ _ hid

/-- (hid, d) is among the tagged emissions iff d is the sweep day and hid is
among the emitted ids. -/
theorem mem_pair_map (l2 : List (Nat × Habit)) (hid d t : Nat) :
    (hid, d) ∈ (l2.map (fun p => (p.1, t))) ↔ (d = t ∧ hid ∈ l2.map Prod.fst) := by
  constructor
  · intro hmem
    obtain ⟨p, hp1, hp2⟩ := List.mem_map.mp hmem
    have h1 : p.1 = hid := (Prod.mk.injEq _ _ _ _ ▸ hp2).1
    have h2 : t = d := (Prod.mk.injEq _ _ _ _ ▸ hp2).2
    exact ⟨h2.symm, List.mem_map.mpr ⟨p, hp1, h1⟩⟩
  · rintro ⟨hd, hmem⟩
    obtain ⟨p, hp1, hp2⟩ := List.mem_map.mp hmem
    subst hd
    exact List.mem_map.mpr ⟨p, hp1, by rw [hp2]⟩

/-- Store effect of one sweep on one habit id. -/
theorem tick_store_spec (s : Store) (uid t tm nw hid : Nat) :
    ((hid, t) ∉ (tick s uid t tm nw).1 →
      getHById (tick s uid t tm nw).2 hid = getHById s hid)
    ∧ ((hid, t) ∈ (tick s uid t tm nw).1 →
      getHById (tick s uid t tm nw).2 hid = (getHById s hid).map (lastSentUpd t nw)) := by
  have hmem := mem_pair_map ((s.habits.filter
    (fun p => p.2.user_id == uid && !p.2.archived)).filter
      (fun p => shouldRemind s uid p t tm)) hid t t
  have hspec := tick_fold_spec s uid t tm nw
    (s.habits.filter (fun p => p.2.user_id == uid && !p.2.archived)) [] s hid
  constructor
  · intro hno
    rw [tick_emissions] at hno
    refine hspec.1 (fun hc => hno (hmem.mpr ⟨rfl, hc⟩))
  · intro hyes
    rw [tick_emissions] at hyes
    exact hspec.2 (hmem.mp hyes).2

/-- Necessity of the sweep conditions: an emission (hid, d) implies d is the
sweep day and the habit is an active, owned, reminder-enabled habit whose
time has arrived, not yet reminded today, due today, with no completion. -/
theorem tick_emitted_conditions (s : Store) (uid t tm nw hid d : Nat)
    (hmem : (hid, d) ∈ (tick s uid t tm nw).1) :
    d = t ∧ ∃ h, (hid, h) ∈ s.habits ∧ h.user_id = uid ∧ h.archived = false
      ∧ h.reminder.enabled = true ∧ h.reminder.time ≤ tm
      ∧ h.reminder.last_sent_date ≠ some t ∧ is_due_on h t = true
      ∧ has_completion_on_date s hid uid t = false := by
  refine ⟨tick_emission_day s uid t tm nw hid d hmem, ?_⟩
  rw [tick_emissions] at hmem
  obtain ⟨p, hp1, hp2⟩ := List.mem_map.mp hmem
  have hpid : p.1 = hid := (Prod.mk.injEq _ _ _ _ ▸ hp2).1
  obtain ⟨hpa, hps⟩ := List.mem_filter.mp hp1
  obtain ⟨hpm, hact⟩ := List.mem_filter.mp hpa
  rw [Bool.and_eq_true] at hact
  unfold shouldRemind at hps
  rw [Bool.and_eq_true, Bool.and_eq_true, Bool.and_eq_true, Bool.and_eq_true] at hps
  obtain ⟨⟨⟨⟨hen, htime⟩, hlast⟩, hdue⟩, hcomp⟩ := hps
  refine ⟨p.2, ?_, by simpa using hact.1, by simpa using hact.2, hen,
    by simpa using htime, ?_, hdue, ?_⟩
  · have : ((hid : Nat), p.2) = p := by
      rw [← hpid]
    rw [this]
    exact hpm
  · intro he
    rw [Bool.not_eq_true'] at hlast
    rw [he] at hlast
    simp at hlast
  · rw [Bool.not_eq_true'] at hcomp
    rw [← hpid]
    exact hcomp

/-- With unique document ids, membership determines the id lookup. -/
theorem getHById_of_mem_nodup (l : List (Nat × Habit))
    (hnd : (l.map Prod.fst).Nodup) (hid : Nat) (x : Habit)
    (hmem : (hid, x) ∈ l) : l.find? (fun p => p.1 == hid) = some (hid, x) := by
  induction l with
  | nil => simp at hmem
  | cons q qs ih =>
    rw [List.map_cons, List.nodup_cons] at hnd
    rcases List.mem_cons.mp hmem with hqe | hqt
    · rw [← hqe]
      rw [List.find?_cons_of_pos _ (by simp [← hqe])]
    · have hne : q.1 ≠ hid := by
        intro he
        exact hnd.1 (he ▸ List.mem_map.mpr ⟨(hid, x), hqt, rfl⟩)
      rw [List.find?_cons_of_neg _ (by simp [hne])]
      exact ih hnd.2 hqt

/-- Once last_sent_date equals the sweep day, the sweep does not emit for this
habit again (with unique ids in the store). -/
theorem tick_no_reemit (s : Store) (uid t tm nw hid : Nat) (h : Habit)
    (hnd : (s.habits.map Prod.fst).Nodup)
    (hget : getHById s hid = some h)
    (hlast : h.reminder.last_sent_date = some t) :
    (hid, t) ∉ (tick s uid t tm nw).1 := by
  intro hmem
  obtain ⟨-, h', hmem', _, _, _, _, hlast', -, -⟩ :=
    tick_emitted_conditions s uid t tm nw hid t hmem
  have hf := getHById_of_mem_nodup s.habits hnd hid h' hmem'
  unfold getHById at hget
  rw [hf] at hget
  simp at hget
  exact hlast' (hget ▸ hlast)

theorem count_pair_map (l2 : List (Nat × Habit)) (hid t : Nat) :
    (l2.map (fun p => (p.1, t))).count (hid, t) = (l2.map Prod.fst).count hid := by
  induction l2 with
  | nil => rfl
  | cons p ps ih =>
    simp only [List.map_cons, List.count_cons, ih]
    congr 1
    by_cases hp : p.1 = hid
    · subst hp
      simp
    · simp [hp]

/-- One sweep emits a given (habit, day) pair at most once. -/
theorem tick_count_le_one (s : Store) (uid t tm nw hid d : Nat)
    (hnd : (s.habits.map Prod.fst).Nodup) :
    (tick s uid t tm nw).1.count (hid, d) ≤ 1 := by
  by_cases hd : d = t
  · subst hd
    rw [tick_emissions, count_pair_map]
    have hsub : (((s.habits.filter
          (fun p => p.2.user_id == uid && !p.2.archived)).filter
            (fun p => shouldRemind s uid p d tm)).map Prod.fst).Sublist
        (s.habits.map Prod.fst) :=
      List.Sublist.map Prod.fst ((List.filter_sublist _).trans (List.filter_sublist _))
    exact List.nodup_iff_count_le_one.mp (List.Nodup.sublist hsub hnd) hid
  · have hno : (hid, d) ∉ (tick s uid t tm nw).1 := fun hmem =>
      hd (tick_emission_day s uid t tm nw hid d hmem)
    rw [List.count_eq_zero.mpr hno]
    omega

theorem runTicks_cons (s : Store) (uid t tm nw : Nat)
    (rest : List (Nat × Nat × Nat)) :
    runTicks s uid ((t, tm, nw) :: rest)
      = ((tick s uid t tm nw).1 ++ (runTicks (tick s uid t tm nw).2 uid rest).1,
         (runTicks (tick s uid t tm nw).2 uid rest).2) := rfl

/-- If no sweep in the sequence runs on local day d, no (habit, d) pair is
ever emitted. -/
theorem runTicks_count_zero_of_day (uid hid d : Nat) :
    ∀ (inputs : List (Nat × Nat × Nat)) (s : Store),
    (∀ i ∈ inputs, i.1 ≠ d) →
    (runTicks s uid inputs).1.count (hid, d) = 0 := by
  intro inputs
  induction inputs with
  | nil => intro s _; rfl
  | cons i rest ih =>
    intro s hne
    obtain ⟨t, tm, nw⟩ := i
    rw [runTicks_cons, List.count_append]
    have h1 : (hid, d) ∉ (tick s uid t tm nw).1 := fun hm =>
      hne (t, tm, nw) (List.mem_cons_self _ _)
        (tick_emission_day s uid t tm nw hid d hm).symm
    rw [List.count_eq_zero.mpr h1,
      ih (tick s uid t tm nw).2 (fun i hi => hne i (List.mem_cons_of_mem _ hi))]

/-- Once a habit's stored last_sent_date equals d, no later sweep whose local
days never go below d can emit (habit, d) again. -/
theorem runTicks_no_after_sent (uid hid d : Nat) :
    ∀ (inputs : List (Nat × Nat × Nat)) (s : Store),
    (s.habits.map Prod.fst).Nodup →
    List.Pairwise (fun a b => a.1 ≤ b.1) inputs →
    (∀ i ∈ inputs, d ≤ i.1) →
    (∃ h, getHById s hid = some h ∧ h.reminder.last_sent_date = some d) →
    (runTicks s uid inputs).1.count (hid, d) = 0 := by
  intro inputs
  induction inputs with
  | nil => intro s _ _ _ _; rfl
  | cons i rest ih =>
    intro s hnd hpw hge hP
    obtain ⟨t, tm, nw⟩ := i
    obtain ⟨h, hget, hlast⟩ := hP
    rw [runTicks_cons, List.count_append, List.pairwise_cons] at *
    by_cases ht : t = d
    · subst ht
      have h1 := tick_no_reemit s uid t tm nw hid h hnd hget hlast
      have hkeep := (tick_store_spec s uid t tm nw hid).1 h1
      have hnd' : ((tick s uid t tm nw).2.habits.map Prod.fst).Nodup := by
        rw [tick_ids]
        exact hnd
      rw [List.count_eq_zero.mpr h1,
        ih (tick s uid t tm nw).2 hnd' hpw.2
          (fun i hi => hge i (List.mem_cons_of_mem _ hi))
          ⟨h, by rw [hkeep]; exact hget, hlast⟩]
    · have h1 : (hid, d) ∉ (tick s uid t tm nw).1 := fun hm =>
        ht (tick_emission_day s uid t tm nw hid d hm).symm
      have hdt : d < t :=
        Nat.lt_of_le_of_ne (hge (t, tm, nw) (List.mem_cons_self _ _))
          (fun he => ht he.symm)
      rw [List.count_eq_zero.mpr h1,
        runTicks_count_zero_of_day uid hid d rest (tick s uid t tm nw).2
          (fun i hi => Nat.ne_of_gt (Nat.lt_of_lt_of_le hdt (hpw.1 i hi)))]

/-- A sweep that emits (hid, t) leaves the habit stored with
last_sent_date = some t. -/
theorem tick_emitted_P (s : Store) (uid t tm nw hid : Nat)
    (hnd : (s.habits.map Prod.fst).Nodup)
    (hmem : (hid, t) ∈ (tick s uid t tm nw).1) :
    ∃ h, getHById (tick s uid t tm nw).2 hid = some h
      ∧ h.reminder.last_sent_date = some t := by
  obtain ⟨-, h', hmem', -, -, -, -, -, -, -⟩ :=
    tick_emitted_conditions s uid t tm nw hid t hmem
  have hf := getHById_of_mem_nodup s.habits hnd hid h' hmem'
  have hget : getHById s hid = some h' := by
    unfold getHById
    rw [hf]
    rfl
  have hsp := (tick_store_spec s uid t tm nw hid).2 hmem
  refine ⟨lastSentUpd t nw h', ?_, rfl⟩
  rw [hsp, hget]
  rfl

/-- Across any sequence of sweeps with nondecreasing local days and unique
habit ids, each (habit, day) pair is emitted at most once. -/
theorem runTicks_at_most_once (uid hid d : Nat) :
    ∀ (inputs : List (Nat × Nat × Nat)) (s : Store),
    (s.habits.map Prod.fst).Nodup →
    List.Pairwise (fun a b => a.1 ≤ b.1) inputs →
    (runTicks s uid inputs).1.count (hid, d) ≤ 1 := by
  intro inputs
  induction inputs with
  | nil =>
    intro s _ _
    have h0 : (runTicks s uid []).1.count (hid, d) = 0 := rfl
    omega
  | cons i rest ih =>
    intro s hnd hpw
    obtain ⟨t, tm, nw⟩ := i
    rw [runTicks_cons, List.count_append, List.pairwise_cons] at *
    have hnd' : ((tick s uid t tm nw).2.habits.map Prod.fst).Nodup := by
      rw [tick_ids]
      exact hnd
    by_cases hmem : (hid, d) ∈ (tick s uid t tm nw).1
    · have hd : d = t := tick_emission_day s uid t tm nw hid d hmem
      subst hd
      have hc1 := tick_count_le_one s uid d tm nw hid d hnd
      have hP := tick_emitted_P s uid d tm nw hid hnd hmem
      have hc2 := runTicks_no_after_sent uid hid d rest (tick s uid d tm nw).2
        hnd' hpw.2 (fun i hi => hpw.1 i hi) hP
      omega
    · have hc1 := List.count_eq_zero.mpr hmem
      have hc2 := ih (tick s uid t tm nw).2 hnd' hpw.2
      omega

def enabledHabit : Habit :=
  { user_id := 7, start_date := some 1,
    rpt := { mode := RepeatMode.daily },
    reminder := { enabled := true, time := 540 } }

/-- C7: the reminder sweep emits (habit, day) only when the reminder is
enabled, its time has arrived, last_sent_date differs from today, the habit
is due, and no completion exists for the day; every emission stores
last_sent_date = today on the habit; therefore over any sequence of sweeps
with nondecreasing local days (and unique document ids) each (habit, day)
pair is emitted at most once. -/
theorem claim_C7_reminder_once :
    (∀ (s : Store) (uid t tm nw hid d : Nat),
      (hid, d) ∈ (tick s uid t tm nw).1 →
      d = t ∧ ∃ h, (hid, h) ∈ s.habits ∧ h.user_id = uid ∧ h.archived = false
        ∧ h.reminder.enabled = true ∧ h.reminder.time ≤ tm
        ∧ h.reminder.last_sent_date ≠ some t ∧ is_due_on h t = true
        ∧ has_completion_on_date s hid uid t = false)
    ∧ (∀ (s : Store) (uid t tm nw hid : Nat),
      (s.habits.map Prod.fst).Nodup →
      (hid, t) ∈ (tick s uid t tm nw).1 →
      ∃ h, getHById (tick s uid t tm nw).2 hid = some h
        ∧ h.reminder.last_sent_date = some t)
    ∧ (∀ (uid hid d : Nat) (inputs : List (Nat × Nat × Nat)) (s : Store),
      (s.habits.map Prod.fst).Nodup →
      List.Pairwise (fun a b => a.1 ≤ b.1) inputs →
      (runTicks s uid inputs).1.count (hid, d) ≤ 1) :=
  ⟨tick_emitted_conditions,
    fun s uid t tm nw hid hnd hmem => tick_emitted_P s uid t tm nw hid hnd hmem,
    runTicks_at_most_once⟩

/-- Witness for C7: a concrete store with one enabled daily habit swept twice
on local day 5 (the reminder time 540 having passed both times) emits the
pair (1, 5) at most once. -/
theorem claim_C7_witness :
    (((⟨[(1, enabledHabit)], []⟩ : Store).habits.map Prod.fst).Nodup
      ∧ List.Pairwise (fun a b => a.1 ≤ b.1)
          [((5 : Nat), (600 : Nat), (0 : Nat)), (5, 601, 1)])
    ∧ (runTicks ⟨[(1, enabledHabit)], []⟩ 7
        [(5, 600, 0), (5, 601, 1)]).1.count (1, 5) ≤ 1 :=
  ⟨⟨by decide, by decide⟩,
    claim_C7_reminder_once.2.2 7 1 5 [(5, 600, 0), (5, 601, 1)]
      ⟨[(1, enabledHabit)], []⟩ (by decide) (by decide)⟩

end HabitBot
